import Mathlib

/-!
# Verification of the go-immutable-radix core

A shallow embedding of the immutable radix tree from `node.go`, `iter.go`
and the reverse-iterator file, together with proofs about its traversal
operations (`Get`, `LongestPrefix`, `Minimum`, `Maximum`, the forward and
reverse walks, the iterator lower-bound seeks) and its edge-list
manipulation helpers (`addEdge`, `delEdge`, `replaceEdge`, `clone`).

Keys are byte strings, modelled as `List Nat` compared in unsigned
lexicographic order (`bytes.Compare`).  Go's `nil` slices and empty slices
coincide as `[]`.  The iterator stacks (`[][]*Node`) are modelled with the
*top of the stack at the head* of the list: a Go `append(stack, s)` (push)
becomes `s :: stack`, and popping the last Go element becomes taking the
head.  Slices themselves keep their source order.
-/

set_option linter.unusedVariables false

namespace IRadix

/-- Byte strings (Go `[]byte`): lists of naturals. -/
abbrev Key := List Nat

/-- Embedding of Go `bytes.Compare`: unsigned lexicographic order, with a
proper prefix comparing less than its extensions. -/
def bytesCompare : Key → Key → Ordering
  | [], [] => .eq
  | [], _ :: _ => .lt
  | _ :: _, [] => .gt
  | a :: as, b :: bs =>
    if a < b then .lt else if b < a then .gt else bytesCompare as bs

/-- `a < b` in unsigned lexicographic byte order. -/
def keyLt (a b : Key) : Bool :=
  match bytesCompare a b with
  | .lt => true
  | _ => false

/-- `a ≤ b` in unsigned lexicographic byte order. -/
def keyLe (a b : Key) : Bool :=
  match bytesCompare a b with
  | .gt => false
  | _ => true

/-- Embedding of Go `bytes.HasPrefix s p`: does `s` start with `p`? -/
def hasPfx : Key → Key → Bool
  | _, [] => true
  | [], _ :: _ => false
  | a :: as, b :: bs => a == b && hasPfx as bs

/-- Leaf record (`leafNode`): full key and value.  The `mutateCh` and
`refCount` fields do not affect any traversal result and are modelled
separately (see `NodeW`) for the clone claim. -/
structure LeafNode (T : Type) where
  key : Key
  val : T
deriving DecidableEq, Repr

/-- Radix tree node (`Node`): optional leaf, compressed prefix `pfx`
(the source's `prefix` field), and the ordered edge list of
`(label, child)` pairs.  The iterator files access the same edge list
under the name `children`; per the spec the two names denote the same
sorted list, with `children` dropping the (redundant) labels. -/
inductive Node (T : Type) : Type where
  | mk (leaf : Option (LeafNode T)) (pfx : Key) (edges : List (Nat × Node T)) : Node T

/-- The node's optional leaf. -/
def Node.leaf {T : Type} : Node T → Option (LeafNode T)
  | .mk l _ _ => l

/-- The node's compressed path segment (the source's `prefix`). -/
def Node.pfx {T : Type} : Node T → Key
  | .mk _ p _ => p

/-- The node's sorted edge list. -/
def Node.edges {T : Type} : Node T → List (Nat × Node T)
  | .mk _ _ es => es

instance {T : Type} : Inhabited (Node T) := ⟨.mk none [] []⟩

/-- The child nodes in edge order: the `children`/`n.edges` slice of
`*Node`s seen by the iterators. -/
def children {T : Type} (n : Node T) : List (Node T) :=
  n.edges.map Prod.snd

/-- The (zero- or one-element) list of pairs contributed by an optional
leaf when a walk visits it. -/
def leafPairs {T : Type} : Option (LeafNode T) → List (Key × T)
  | none => []
  | some l => [(l.key, l.val)]

theorem sizeOf_child_lt {T : Type} {lab : Nat} {c : Node T}
    {l : Option (LeafNode T)} {p : Key} {es : List (Nat × Node T)}
    (h : (lab, c) ∈ es) : sizeOf c < sizeOf (Node.mk l p es) := by
  have h1 : sizeOf (lab, c) ≤ sizeOf es := by
    induction es with
    | nil => cases h
    | cons e es ih =>
      rcases List.mem_cons.mp h with h | h
      · rw [← h]; simp only [List.cons.sizeOf_spec]; omega
      · have := ih h; simp only [List.cons.sizeOf_spec]; omega
  have h2 : sizeOf c < sizeOf (lab, c) := by
    simp only [Prod.mk.sizeOf_spec]; omega
  simp only [Node.mk.sizeOf_spec]
  omega

mutual
/-- The visit sequence of `recursiveWalk` (hence of `Walk`) with a callback
that never aborts: the node's leaf first, then the children in edge
order. -/
def walkList {T : Type} : Node T → List (Key × T)
  | .mk l _ es => leafPairs l ++ walkListE es
/-- `recursiveWalk` over a list of edges, in order. -/
def walkListE {T : Type} : List (Nat × Node T) → List (Key × T)
  | [] => []
  | e :: es => walkList e.2 ++ walkListE es
end

theorem walkList_mk {T : Type} (l : Option (LeafNode T)) (p : Key)
    (es : List (Nat × Node T)) :
    walkList (.mk l p es) = leafPairs l ++ walkListE es := by
  rw [walkList]

theorem walkListE_cons {T : Type} (e : Nat × Node T) (es : List (Nat × Node T)) :
    walkListE (e :: es) = walkList e.2 ++ walkListE es := by
  rw [walkListE]

theorem walkListE_append {T : Type} (es fs : List (Nat × Node T)) :
    walkListE (es ++ fs) = walkListE es ++ walkListE fs := by
  induction es with
  | nil => simp [walkListE]
  | cons e es ih => simp [walkListE_cons, ih]

theorem bytesCompare_self (a : Key) : bytesCompare a a = .eq := by
  induction a with
  | nil => rfl
  | cons x xs ih => simp [bytesCompare, ih]

theorem bytesCompare_eq_iff {a b : Key} : bytesCompare a b = .eq ↔ a = b := by
  constructor
  · intro h
    induction a generalizing b with
    | nil => cases b with
      | nil => rfl
      | cons y ys => simp [bytesCompare] at h
    | cons x xs ih =>
      cases b with
      | nil => simp [bytesCompare] at h
      | cons y ys =>
        simp only [bytesCompare] at h
        split at h
        · exact absurd h (by simp)
        · split at h
          · exact absurd h (by simp)
          · have hxy : x = y := by omega
            rw [hxy, ih h]
  · intro h; rw [h]; exact bytesCompare_self b

theorem bytesCompare_swap (a b : Key) :
    bytesCompare b a = (bytesCompare a b).swap := by
  induction a generalizing b with
  | nil => cases b <;> rfl
  | cons x xs ih =>
    cases b with
    | nil => rfl
    | cons y ys =>
      simp only [bytesCompare]
      by_cases h1 : x < y
      · simp [h1, Nat.lt_asymm h1, Ordering.swap]
      · by_cases h2 : y < x
        · simp [h1, h2, Ordering.swap]
        · simp [h1, h2, ih]

theorem bytesCompare_lt_trans {a b c : Key} (h1 : bytesCompare a b = .lt)
    (h2 : bytesCompare b c = .lt) : bytesCompare a c = .lt := by
  induction a generalizing b c with
  | nil =>
    cases b with
    | nil => simp [bytesCompare] at h1
    | cons y ys =>
      cases c with
      | nil => simp [bytesCompare] at h2
      | cons z zs => rfl
  | cons x xs ih =>
    cases b with
    | nil => simp [bytesCompare] at h1
    | cons y ys =>
      cases c with
      | nil => simp [bytesCompare] at h2
      | cons z zs =>
        simp only [bytesCompare] at h1 h2 ⊢
        by_cases hxy : x < y
        · have hyz : y ≤ z := by
            by_contra hc
            simp [show ¬ y < z by omega, show z < y by omega] at h2
          simp [show x < z by omega]
        · by_cases hyx : y < x
          · simp [hxy, hyx] at h1
          · have hxy' : x = y := by omega
            simp [hxy, hyx] at h1
            by_cases hyz : y < z
            · simp [show x < z by omega]
            · by_cases hzy : z < y
              · simp [hyz, hzy] at h2
              · have : ¬ x < z := by omega
                simp [hyz, hzy] at h2
                simp [this, show ¬ z < x by omega]
                exact ih h1 h2

theorem bytesCompare_append_left (p a b : Key) :
    bytesCompare (p ++ a) (p ++ b) = bytesCompare a b := by
  induction p with
  | nil => rfl
  | cons x xs ih => simp [bytesCompare, ih]

theorem bytesCompare_self_append {x : Key} (a : Key) (hx : x ≠ []) :
    bytesCompare a (a ++ x) = .lt := by
  have := bytesCompare_append_left a [] x
  rw [List.append_nil] at this
  rw [this]
  cases x with
  | nil => exact absurd rfl hx
  | cons y ys => rfl

theorem bytesCompare_append_head_lt {p : Key} {x y : Nat} (h : x < y) (u v : Key) :
    bytesCompare (p ++ x :: u) (p ++ y :: v) = .lt := by
  rw [bytesCompare_append_left]
  simp [bytesCompare, h]

theorem keyLt_iff {a b : Key} : keyLt a b = true ↔ bytesCompare a b = .lt := by
  unfold keyLt
  cases h : bytesCompare a b <;> simp

theorem keyLe_iff {a b : Key} :
    keyLe a b = true ↔ bytesCompare a b ≠ .gt := by
  unfold keyLe
  cases h : bytesCompare a b <;> simp

theorem keyLe_of_lt {a b : Key} (h : bytesCompare a b = .lt) : keyLe a b = true := by
  rw [keyLe_iff, h]; simp

theorem keyLe_self (a : Key) : keyLe a a = true := by
  rw [keyLe_iff, bytesCompare_self]; simp

theorem keyLe_false_of_gt {a b : Key} (h : bytesCompare a b = .gt) :
    keyLe a b = false := by
  unfold keyLe; rw [h]

theorem bytesCompare_gt_of_lt {a b : Key} (h : bytesCompare a b = .lt) :
    bytesCompare b a = .gt := by
  rw [bytesCompare_swap, h]; rfl

theorem hasPfx_iff {s p : Key} : hasPfx s p = true ↔ ∃ w, s = p ++ w := by
  induction p generalizing s with
  | nil => simp [hasPfx]
  | cons b bs ih =>
    cases s with
    | nil => simp [hasPfx]
    | cons a as =>
      simp only [hasPfx, Bool.and_eq_true, beq_iff_eq, ih, List.cons_append,
        List.cons.injEq]
      constructor
      · rintro ⟨h1, w, h2⟩; exact ⟨w, h1, h2⟩
      · rintro ⟨w, h1, h2⟩; exact ⟨h1, w, h2⟩

theorem hasPfx_drop {s p : Key} (h : hasPfx s p = true) :
    s = p ++ s.drop p.length := by
  obtain ⟨w, rfl⟩ := hasPfx_iff.mp h
  simp

/-- Embedding of Go `sort.Search` restricted to the interval `[i, j)`:
binary search for the least index satisfying `f`, landing on `j` when
there is none.  The top-level Go call is `sortSearch f 0 n`. -/
def sortSearch (f : Nat → Bool) (i j : Nat) : Nat :=
  if _ : i < j then
    let h := (i + j) / 2
    if f h then sortSearch f i h else sortSearch f (h + 1) j
  else i
termination_by j - i
decreasing_by
  · omega
  · omega

/-- `sort.Search` on a predicate monotone below `N` returns the least
index where the predicate holds (or the right endpoint). -/
theorem sortSearch_spec (f : Nat → Bool) (N : Nat)
    (mono : ∀ a b : Nat, a ≤ b → b < N → f a = true → f b = true) :
    ∀ fuel i j, j - i ≤ fuel → i ≤ j → j ≤ N →
      i ≤ sortSearch f i j ∧ sortSearch f i j ≤ j ∧
      (∀ k, i ≤ k → k < sortSearch f i j → f k = false) ∧
      (sortSearch f i j < j → f (sortSearch f i j) = true) := by
  intro fuel
  induction fuel with
  | zero =>
    intro i j hf hij hjN
    have hij' : i = j := by omega
    have heq : sortSearch f i j = i := by
      rw [sortSearch, dif_neg (by omega)]
    rw [heq]
    exact ⟨le_refl i, hij, fun k hk1 hk2 => ((by omega : False)).elim,
      fun hlt => ((by omega : False)).elim⟩
  | succ fuel ih =>
    intro i j hf hij hjN
    rw [sortSearch]
    by_cases hlt : i < j
    · simp only [hlt, dif_pos]
      set h := (i + j) / 2 with hh
      have hhi : i ≤ h := by omega
      have hhj : h < j := by omega
      by_cases hfh : f h = true
      · simp only [hfh, if_pos]
        obtain ⟨r1, r2, r3, r4⟩ := ih i h (by omega) (by omega) (by omega)
        refine ⟨r1, by omega, r3, ?_⟩
        intro hr
        by_cases hcase : sortSearch f i h < h
        · exact r4 hcase
        · have : sortSearch f i h = h := by omega
          rw [this]; exact hfh
      · rw [if_neg hfh]
        obtain ⟨r1, r2, r3, r4⟩ := ih (h + 1) j (by omega) (by omega) hjN
        refine ⟨by omega, r2, ?_, r4⟩
        intro k hk1 hk2
        by_cases hkh : k ≤ h
        · by_contra hc
          have hk : f k = true := by
            cases hfk : f k
            · exact absurd hfk hc
            · rfl
          exact hfh (mono k h hkh (by omega) hk)
        · exact r3 k (by omega) hk2
    · rw [dif_neg hlt]
      exact ⟨le_refl i, by omega, fun k hk1 hk2 => ((by omega : False)).elim,
        fun h => absurd h hlt⟩

/-- Label of the `i`-th edge, with a dummy default out of range
(`sort.Search` only evaluates in-range indices). -/
def labelAt {T : Type} (es : List (Nat × Node T)) (i : Nat) : Nat :=
  (es.getD i (0, default)).1

/-- Embedding of `Node.getEdge`: binary-search the sorted edge list for
the edge with the given label. -/
def getEdge {T : Type} (n : Node T) (label : Nat) : Option (Node T) :=
  let es := n.edges
  let num := es.length
  let idx := sortSearch (fun i => label ≤ labelAt es i) 0 num
  if idx < num ∧ labelAt es idx = label then some (es.getD idx (0, default)).2
  else none

/-- Embedding of `Node.getLowerBoundEdge`: index and child of the first
edge whose label is `≥ label`, or `none` (Go's `-1, nil`). -/
def getLowerBoundEdge {T : Type} (n : Node T) (label : Nat) :
    Option (Nat × Node T) :=
  let es := n.edges
  let num := es.length
  let idx := sortSearch (fun i => label ≤ labelAt es i) 0 num
  if idx < num then some (idx, (es.getD idx (0, default)).2)
  else none

theorem getD_mem {T : Type} {es : List (Nat × Node T)} {i : Nat}
    (h : i < es.length) : es.getD i (0, default) ∈ es := by
  rw [List.getD_eq_getElem _ _ h]
  exact List.getElem_mem h

theorem getEdge_mem {T : Type} {n : Node T} {label : Nat} {c : Node T}
    (h : getEdge n label = some c) : (label, c) ∈ n.edges := by
  simp only [getEdge] at h
  split at h
  · rename_i hcond
    obtain ⟨hlt, hlab⟩ := hcond
    have h2 : (n.edges.getD _ (0, default)).2 = c := Option.some_inj.mp h
    have hmem := getD_mem (T := T) hlt
    unfold labelAt at hlab
    have hpair : (label, c) = n.edges.getD
        (sortSearch (fun i => decide (label ≤ labelAt n.edges i)) 0
          n.edges.length) (0, default) :=
      Prod.ext_iff.mpr ⟨hlab.symm, h2.symm⟩
    rw [hpair]
    exact hmem
  · exact absurd h (by simp)

theorem getLowerBoundEdge_mem {T : Type} {n : Node T} {label idx : Nat}
    {c : Node T} (h : getLowerBoundEdge n label = some (idx, c)) :
    ∃ l, (l, c) ∈ n.edges := by
  simp only [getLowerBoundEdge] at h
  split at h
  · rename_i hlt
    have h2 := Option.some_inj.mp h
    rw [Prod.mk.injEq] at h2
    obtain ⟨hidx, hc⟩ := h2
    have hmem := getD_mem (T := T) hlt
    rw [hidx] at hmem hc
    refine ⟨(n.edges.getD idx (0, default)).1, ?_⟩
    rw [← hc, Prod.mk.eta]
    exact hmem
  · exact absurd h (by simp)

/-- Edge labels strictly ascending (the §3 invariant: sorted, distinct). -/
def labelsSorted {T : Type} : List (Nat × Node T) → Bool
  | [] => true
  | [_] => true
  | (l1, _) :: (l2, c2) :: es => l1 < l2 && labelsSorted ((l2, c2) :: es)

theorem labelsSorted_cons {T : Type} {e : Nat × Node T}
    {es : List (Nat × Node T)} (h : labelsSorted (e :: es) = true) :
    labelsSorted es = true ∧ ∀ f ∈ es, e.1 < f.1 := by
  induction es generalizing e with
  | nil => simp [labelsSorted]
  | cons f fs ih =>
    obtain ⟨e1, e2⟩ := e
    obtain ⟨f1, f2⟩ := f
    simp only [labelsSorted, Bool.and_eq_true, decide_eq_true_eq] at h
    obtain ⟨h1, h2⟩ := h
    obtain ⟨ih1, ih2⟩ := ih h2
    refine ⟨h2, ?_⟩
    intro g hg
    rcases List.mem_cons.mp hg with hg | hg
    · rw [hg]; exact h1
    · exact lt_trans h1 (ih2 g hg)

theorem labelsSorted_pairwise {T : Type} {es : List (Nat × Node T)}
    (h : labelsSorted es = true) :
    List.Pairwise (fun a b : Nat × Node T => a.1 < b.1) es := by
  induction es with
  | nil => exact List.Pairwise.nil
  | cons e es ih =>
    obtain ⟨h1, h2⟩ := labelsSorted_cons h
    exact List.Pairwise.cons h2 (ih h1)

theorem labelsSorted_getElem_lt {T : Type} {es : List (Nat × Node T)}
    (h : labelsSorted es = true) {i j : Nat} (hi : i < es.length)
    (hj : j < es.length) (hij : i < j) : (es[i]).1 < (es[j]).1 := by
  have hp := labelsSorted_pairwise h
  exact List.pairwise_iff_getElem.mp hp i j hi hj hij

theorem labelsSorted_getElem_le {T : Type} {es : List (Nat × Node T)}
    (h : labelsSorted es = true) {i j : Nat} (hi : i < es.length)
    (hj : j < es.length) (hij : i ≤ j) : (es[i]).1 ≤ (es[j]).1 := by
  rcases Nat.lt_or_ge i j with hlt | hge
  · exact le_of_lt (labelsSorted_getElem_lt h hi hj hlt)
  · have heq : i = j := by omega
    subst heq
    exact le_refl _

theorem labelAt_eq {T : Type} {es : List (Nat × Node T)} {i : Nat}
    (h : i < es.length) : labelAt es i = (es[i]).1 := by
  unfold labelAt
  rw [List.getD_eq_getElem _ _ h]

/-- On a sorted edge list, `sort.Search` for `lab ≤ label` lands at the
least index whose label is `≥ lab`. -/
theorem sortSearch_edges {T : Type} {es : List (Nat × Node T)}
    (hs : labelsSorted es = true) (lab : Nat) :
    sortSearch (fun i => decide (lab ≤ labelAt es i)) 0 es.length ≤ es.length ∧
    (∀ k (hk : k < es.length),
      k < sortSearch (fun i => decide (lab ≤ labelAt es i)) 0 es.length →
      (es[k]).1 < lab) ∧
    (∀ h : sortSearch (fun i => decide (lab ≤ labelAt es i)) 0 es.length <
        es.length,
      lab ≤ (es.get ⟨sortSearch (fun i => decide (lab ≤ labelAt es i)) 0
        es.length, h⟩).1) := by
  have mono : ∀ a b : Nat, a ≤ b → b < es.length →
      decide (lab ≤ labelAt es a) = true → decide (lab ≤ labelAt es b) = true := by
    intro a b hab hb ha
    rw [decide_eq_true_eq] at ha ⊢
    rcases Nat.lt_or_ge a b with h | h
    · have := labelsSorted_getElem_lt hs (by omega) hb h
      rw [labelAt_eq (by omega : a < es.length)] at ha
      rw [labelAt_eq hb]
      omega
    · have : a = b := by omega
      rwa [← this]
  obtain ⟨r1, r2, r3, r4⟩ := sortSearch_spec _ es.length mono es.length 0
    es.length (by omega) (by omega) (le_refl _)
  refine ⟨r2, ?_, ?_⟩
  · intro k hk hk2
    have := r3 k (by omega) hk2
    rw [decide_eq_false_iff_not, not_le, labelAt_eq hk] at this
    exact this
  · intro h
    have := r4 h
    rw [decide_eq_true_eq, labelAt_eq h] at this
    exact this

theorem getEdge_eq_some_iff {T : Type} {n : Node T}
    (hs : labelsSorted n.edges = true) {lab : Nat} {c : Node T} :
    getEdge n lab = some c ↔ (lab, c) ∈ n.edges := by
  constructor
  · exact getEdge_mem
  · intro hmem
    obtain ⟨i, hi, hget⟩ := List.getElem_of_mem hmem
    obtain ⟨r1, r2, r3⟩ := sortSearch_edges hs lab
    set idx := sortSearch (fun i => decide (lab ≤ labelAt n.edges i)) 0
      n.edges.length with hidx
    have hile : idx ≤ i := by
      by_contra hc
      have := r2 i hi (by omega)
      rw [hget] at this
      omega
    have hlt : idx < n.edges.length := by omega
    have heq : idx = i := by
      by_contra hc
      have hlt2 : idx < i := by omega
      have := labelsSorted_getElem_lt hs hlt hi hlt2
      have h3 : lab ≤ (n.edges[idx]).1 := r3 hlt
      rw [hget] at this
      omega
    simp only [getEdge]
    rw [← hidx]
    have hgi : n.edges[idx] = (lab, c) := by
      simp only [heq]
      exact hget
    have hcond : idx < n.edges.length ∧ labelAt n.edges idx = lab := by
      refine ⟨hlt, ?_⟩
      rw [labelAt_eq hlt, hgi]
    rw [if_pos hcond, List.getD_eq_getElem _ _ hlt, hgi]

theorem getEdge_eq_none_iff {T : Type} {n : Node T}
    (hs : labelsSorted n.edges = true) {lab : Nat} :
    getEdge n lab = none ↔ ∀ c, (lab, c) ∉ n.edges := by
  constructor
  · intro h c hc
    rw [← getEdge_eq_some_iff hs] at hc
    rw [h] at hc
    exact absurd hc (by simp)
  · intro h
    cases hg : getEdge n lab with
    | none => rfl
    | some c => exact absurd (getEdge_mem hg) (h c)

theorem getLowerBoundEdge_some {T : Type} {n : Node T}
    (hs : labelsSorted n.edges = true) {lab idx : Nat} {c : Node T}
    (h : getLowerBoundEdge n lab = some (idx, c)) :
    ∃ hlt : idx < n.edges.length,
      c = (n.edges[idx]).2 ∧ lab ≤ (n.edges[idx]).1 ∧
      ∀ k (hk : k < n.edges.length), k < idx → (n.edges[k]).1 < lab := by
  obtain ⟨r1, r2, r3⟩ := sortSearch_edges hs lab
  simp only [getLowerBoundEdge] at h
  split at h
  · rename_i hlt
    have h2 := Option.some_inj.mp h
    rw [Prod.mk.injEq] at h2
    obtain ⟨hidx, hc⟩ := h2
    rw [← hidx]
    refine ⟨hlt, ?_, r3 hlt, fun k hk hk2 => r2 k hk hk2⟩
    rw [← hc, List.getD_eq_getElem _ _ hlt]
  · exact absurd h (by simp)

theorem getLowerBoundEdge_none {T : Type} {n : Node T}
    (hs : labelsSorted n.edges = true) {lab : Nat}
    (h : getLowerBoundEdge n lab = none) :
    ∀ k (hk : k < n.edges.length), (n.edges[k]).1 < lab := by
  obtain ⟨r1, r2, r3⟩ := sortSearch_edges hs lab
  simp only [getLowerBoundEdge] at h
  split at h
  · exact absurd h (by simp)
  · rename_i hlt
    intro k hk
    exact r2 k hk (by omega)

theorem sizeOf_lt_of_mem_edges {T : Type} {n : Node T} {lab : Nat}
    {c : Node T} (h : (lab, c) ∈ n.edges) : sizeOf c < sizeOf n := by
  cases n with
  | mk l p es => exact sizeOf_child_lt h

mutual
/-- §3 structural invariants for the subtree rooted at a node whose
accumulated path *above* it is `p` (keys below all start with
`p ++ n.pfx`): the leaf key equals the accumulated path, edge labels are
sorted strictly ascending (hence distinct), each child's prefix is
non-empty and starts with its edge label, and no child roots an empty
subtree (a node with neither leaf nor edges is only the empty root). -/
def validSub {T : Type} : Key → Node T → Bool
  | p, .mk lf pf es =>
    (match lf with
     | some l => l.key == p ++ pf
     | none => true)
    && labelsSorted es && childrenValid (p ++ pf) es
/-- The per-child part of `validSub` over an edge list. -/
def childrenValid {T : Type} : Key → List (Nat × Node T) → Bool
  | _, [] => true
  | p, (lab, c) :: es =>
    !c.pfx.isEmpty && (c.pfx.head? == some lab) &&
    (c.leaf.isSome || !c.edges.isEmpty) &&
    validSub p c && childrenValid p es
end

/-- Validity of a whole tree: the root's prefix is empty (no edge hangs
above the root) and the §3 invariants hold everywhere below. -/
def validRoot {T : Type} (n : Node T) : Bool :=
  n.pfx.isEmpty && validSub [] n

theorem validSub_mk {T : Type} {p : Key} {lf : Option (LeafNode T)}
    {pf : Key} {es : List (Nat × Node T)} :
    validSub p (.mk lf pf es) = true ↔
      (∀ l, lf = some l → l.key = p ++ pf) ∧ labelsSorted es = true ∧
      childrenValid (p ++ pf) es = true := by
  rw [validSub.eq_def]
  cases lf with
  | none => simp
  | some l => simp [and_assoc]

theorem childrenValid_cons {T : Type} {p : Key} {lab : Nat} {c : Node T}
    {es : List (Nat × Node T)} :
    childrenValid p ((lab, c) :: es) = true ↔
      c.pfx ≠ [] ∧ c.pfx.head? = some lab ∧
      (c.leaf.isSome = true ∨ c.edges ≠ []) ∧ validSub p c = true ∧
      childrenValid p es = true := by
  rw [childrenValid]
  simp [List.isEmpty_iff, and_assoc]

theorem childrenValid_mem {T : Type} {p : Key} {es : List (Nat × Node T)}
    (h : childrenValid p es = true) {lab : Nat} {c : Node T}
    (hm : (lab, c) ∈ es) :
    c.pfx ≠ [] ∧ c.pfx.head? = some lab ∧
    (c.leaf.isSome = true ∨ c.edges ≠ []) ∧ validSub p c = true := by
  induction es with
  | nil => cases hm
  | cons e es ih =>
    obtain ⟨l0, c0⟩ := e
    rw [childrenValid_cons] at h
    rcases List.mem_cons.mp hm with hm | hm
    · obtain ⟨h1, h2⟩ := Prod.mk.injEq .. ▸ hm
      subst h1; subst h2
      exact ⟨h.1, h.2.1, h.2.2.1, h.2.2.2.1⟩
    · exact ih h.2.2.2.2 hm

/-- Embedding of `Node.Get` (the value/found parts of `Node.GetWatch`):
`some v` models `(v, true)`, `none` models `(zero, false)`.  The root's
own prefix is never consumed, mirroring the source loop. -/
def get {T : Type} : Node T → Key → Option T
  | n, [] => n.leaf.map LeafNode.val
  | n, c :: rest =>
    match h : getEdge n c with
    | none => none
    | some child =>
      if hasPfx (c :: rest) child.pfx then
        get child ((c :: rest).drop child.pfx.length)
      else none
termination_by n _ => sizeOf n
decreasing_by
  exact sizeOf_lt_of_mem_edges (getEdge_mem h)

theorem get_nil {T : Type} (n : Node T) :
    get n [] = n.leaf.map LeafNode.val := by
  rw [get]

theorem get_cons_none {T : Type} {n : Node T} {c : Nat} {rest : Key}
    (hge : getEdge n c = none) : get n (c :: rest) = none := by
  rw [get]
  split
  · rfl
  · rename_i child heq
    rw [hge] at heq
    cases heq

theorem get_cons_some {T : Type} {n : Node T} {c : Nat} {rest : Key}
    {child : Node T} (hge : getEdge n c = some child) :
    get n (c :: rest) =
      (if hasPfx (c :: rest) child.pfx then
        get child ((c :: rest).drop child.pfx.length)
      else none) := by
  rw [get]
  split
  · rename_i heq
    rw [hge] at heq
    cases heq
  · rename_i child' heq
    rw [hge] at heq
    cases heq
    rfl

/-- The loop of `Node.LongestPrefix`: `last` holds the most recently
recorded leaf on the descent. -/
def longestPrefixAux {T : Type} : Node T → Key → Option (LeafNode T) →
    Option (LeafNode T)
  | n, [], last => n.leaf.elim last some
  | n, c :: rest, last =>
    match h : getEdge n c with
    | none => n.leaf.elim last some
    | some child =>
      if hasPfx (c :: rest) child.pfx then
        longestPrefixAux child ((c :: rest).drop child.pfx.length)
          (n.leaf.elim last some)
      else n.leaf.elim last some
termination_by n _ _ => sizeOf n
decreasing_by
  exact sizeOf_lt_of_mem_edges (getEdge_mem h)

theorem longestPrefixAux_nil {T : Type} (n : Node T)
    (last : Option (LeafNode T)) :
    longestPrefixAux n [] last = n.leaf.elim last some := by
  rw [longestPrefixAux]

theorem longestPrefixAux_cons_none {T : Type} {n : Node T} {c : Nat}
    {rest : Key} {last : Option (LeafNode T)} (hge : getEdge n c = none) :
    longestPrefixAux n (c :: rest) last = n.leaf.elim last some := by
  rw [longestPrefixAux]
  split
  · rfl
  · rename_i child heq
    rw [hge] at heq
    cases heq

theorem longestPrefixAux_cons_some {T : Type} {n : Node T} {c : Nat}
    {rest : Key} {last : Option (LeafNode T)} {child : Node T}
    (hge : getEdge n c = some child) :
    longestPrefixAux n (c :: rest) last =
      (if hasPfx (c :: rest) child.pfx then
        longestPrefixAux child ((c :: rest).drop child.pfx.length)
          (n.leaf.elim last some)
      else n.leaf.elim last some) := by
  rw [longestPrefixAux]
  split
  · rename_i heq
    rw [hge] at heq
    cases heq
  · rename_i child' heq
    rw [hge] at heq
    cases heq
    rfl

/-- Embedding of `Node.LongestPrefix`. -/
def longestPfxMatch {T : Type} (n : Node T) (k : Key) : Option (Key × T) :=
  (longestPrefixAux n k none).map (fun l => (l.key, l.val))

/-- Embedding of `Node.Minimum`: return the leaf as soon as one is seen,
else follow edge 0. -/
def minimum {T : Type} : Node T → Option (Key × T)
  | .mk (some l) _ _ => some (l.key, l.val)
  | .mk none _ [] => none
  | .mk none _ ((_, c) :: _) => minimum c

/-- Embedding of `Node.Maximum`: follow the last edge while edges exist;
only an edge-less node's leaf is returned (a leaf on an internal node is
shadowed). -/
def maximum {T : Type} : Node T → Option (Key × T)
  | .mk l _ [] => l.map (fun lf => (lf.key, lf.val))
  | .mk _ _ (e :: es) => maximum ((e :: es).getLast (by simp)).2
termination_by n => sizeOf n
decreasing_by
  have hmem := List.getLast_mem (l := e :: es) (by simp)
  cases hgl : (e :: es).getLast (by simp) with
  | mk lab c =>
    rw [hgl] at hmem
    simp only
    exact sizeOf_child_lt hmem

theorem mem_walkListE {T : Type} {es : List (Nat × Node T)} {kv : Key × T}
    (h : kv ∈ walkListE es) : ∃ lab c, (lab, c) ∈ es ∧ kv ∈ walkList c := by
  induction es with
  | nil => rw [walkListE] at h; cases h
  | cons e es ih =>
    rw [walkListE_cons] at h
    rcases List.mem_append.mp h with h | h
    · exact ⟨e.1, e.2, List.mem_cons_self .., h⟩
    · obtain ⟨lab, c, hm, hc⟩ := ih h
      exact ⟨lab, c, List.mem_cons_of_mem _ hm, hc⟩

/-- Strong induction on the size of a node: the workhorse induction
principle for descent proofs. -/
theorem node_strong_ind {T : Type} {motive : Node T → Prop}
    (ind : ∀ n : Node T, (∀ m : Node T, sizeOf m < sizeOf n → motive m) →
      motive n) (n : Node T) : motive n := by
  have H : ∀ k : Nat, ∀ n : Node T, sizeOf n ≤ k → motive n := by
    intro k
    induction k with
    | zero =>
      intro n hn
      exact ind n (fun m hm => ((by omega : False)).elim)
    | succ k ih =>
      intro n hn
      exact ind n (fun m hm => ih m (by omega))
  exact H (sizeOf n) n (le_refl _)

theorem walk_key_shape {T : Type} (n : Node T) :
    ∀ p : Key, validSub p n = true →
    ∀ kv ∈ walkList n, ∃ w, kv.1 = p ++ n.pfx ++ w := by
  induction n using node_strong_ind with
  | ind n IH =>
    intro p h kv hkv
    cases n with
    | mk lf pf es =>
      rw [validSub_mk] at h
      obtain ⟨hl, hs, hc⟩ := h
      rw [walkList_mk] at hkv
      simp only [Node.pfx]
      rcases List.mem_append.mp hkv with hkv | hkv
      · cases lf with
        | none => simp [leafPairs] at hkv
        | some l =>
          simp only [leafPairs, List.mem_singleton] at hkv
          refine ⟨[], ?_⟩
          rw [hkv]
          simp [hl l rfl]
      · obtain ⟨lab, c, hmem, hkv'⟩ := mem_walkListE hkv
        have hcv := childrenValid_mem hc hmem
        obtain ⟨w, hw⟩ := IH c (sizeOf_child_lt hmem) (p ++ pf)
          hcv.2.2.2 kv hkv'
        exact ⟨c.pfx ++ w, by rw [hw]; simp⟩

theorem child_key_shape {T : Type} {p' : Key} {es : List (Nat × Node T)}
    (hc : childrenValid p' es = true) {lab : Nat} {c : Node T}
    (hm : (lab, c) ∈ es) {kv : Key × T} (hkv : kv ∈ walkList c) :
    ∃ w, kv.1 = p' ++ lab :: w := by
  obtain ⟨hne, hhead, _, hv⟩ := childrenValid_mem hc hm
  obtain ⟨w, hw⟩ := walk_key_shape c p' hv kv hkv
  obtain ⟨t, ht⟩ : ∃ t, c.pfx = lab :: t := by
    cases hp : c.pfx with
    | nil => exact absurd hp hne
    | cons a as =>
      rw [hp] at hhead
      simp at hhead
      exact ⟨as, by rw [hhead]⟩
  exact ⟨t ++ w, by rw [hw, ht]; simp⟩

theorem walk_ne_nil {T : Type} (n : Node T) :
    ∀ p : Key, validSub p n = true →
    n.leaf.isSome = true ∨ n.edges ≠ [] → walkList n ≠ [] := by
  induction n using node_strong_ind with
  | ind n IH =>
    intro p h hne
    cases n with
    | mk lf pf es =>
      rw [validSub_mk] at h
      obtain ⟨hl, hs, hc⟩ := h
      rw [walkList_mk]
      cases lf with
      | some l => simp [leafPairs]
      | none =>
        simp only [Node.edges, Node.leaf, Option.isSome_none,
          Bool.false_eq_true, false_or] at hne
        cases es with
        | nil => exact absurd rfl hne
        | cons e es' =>
          obtain ⟨lab, c⟩ := e
          rw [childrenValid_cons] at hc
          have hrec := IH c (sizeOf_child_lt (List.mem_cons_self ..)) (p ++ pf)
            hc.2.2.2.1 hc.2.2.1
          rw [walkListE_cons]
          simp only [leafPairs, List.nil_append]
          intro hcontra
          rcases List.append_eq_nil.mp hcontra with ⟨h1, h2⟩
          exact hrec h1

theorem walkE_sorted_aux {T : Type} {p' : Key} (es : List (Nat × Node T))
    (hs : labelsSorted es = true) (hc : childrenValid p' es = true)
    (hrec : ∀ lab c, (lab, c) ∈ es →
      List.Pairwise (fun a b : Key × T => bytesCompare a.1 b.1 = .lt)
        (walkList c)) :
    List.Pairwise (fun a b : Key × T => bytesCompare a.1 b.1 = .lt)
      (walkListE es) := by
  induction es with
  | nil => rw [walkListE]; exact List.Pairwise.nil
  | cons e es' ih =>
    obtain ⟨lab, c⟩ := e
    rw [childrenValid_cons] at hc
    rw [walkListE_cons, List.pairwise_append]
    refine ⟨hrec lab c (List.mem_cons_self ..),
      ih (labelsSorted_cons hs).1 hc.2.2.2.2
        (fun l2 c2 hm => hrec l2 c2 (List.mem_cons_of_mem _ hm)), ?_⟩
    intro a ha b hb
    obtain ⟨w1, hw1⟩ := child_key_shape
      (childrenValid_cons.mpr hc) (List.mem_cons_self ..) ha
    obtain ⟨lab2, c2, hm2, hb'⟩ := mem_walkListE hb
    obtain ⟨w2, hw2⟩ := child_key_shape hc.2.2.2.2 hm2 hb'
    have hlt : lab < lab2 := (labelsSorted_cons hs).2 _ hm2
    rw [hw1, hw2]
    exact bytesCompare_append_head_lt hlt _ _

theorem walk_sorted {T : Type} (n : Node T) :
    ∀ p : Key, validSub p n = true →
    List.Pairwise (fun a b : Key × T => bytesCompare a.1 b.1 = .lt)
      (walkList n) := by
  induction n using node_strong_ind with
  | ind n IH =>
    intro p h
    cases n with
    | mk lf pf es =>
      rw [validSub_mk] at h
      obtain ⟨hl, hs, hc⟩ := h
      rw [walkList_mk, List.pairwise_append]
      refine ⟨?_, walkE_sorted_aux es hs hc
        (fun lab c hm => IH c (sizeOf_child_lt hm) (p ++ pf)
          (childrenValid_mem hc hm).2.2.2), ?_⟩
      · cases lf <;> simp [leafPairs]
      · intro a ha b hb
        cases lf with
        | none => simp [leafPairs] at ha
        | some l =>
          simp only [leafPairs, List.mem_singleton] at ha
          obtain ⟨lab, c, hm, hb'⟩ := mem_walkListE hb
          obtain ⟨w, hw⟩ := child_key_shape hc hm hb'
          rw [ha, hw]
          simp only
          rw [hl l rfl]
          exact bytesCompare_self_append _ (by simp)

theorem mem_walkListE_of_mem {T : Type} {es : List (Nat × Node T)}
    {lab : Nat} {cn : Node T} (hm : (lab, cn) ∈ es) {kv : Key × T}
    (h : kv ∈ walkList cn) : kv ∈ walkListE es := by
  induction es with
  | nil => cases hm
  | cons e es ih =>
    rw [walkListE_cons]
    rcases List.mem_cons.mp hm with hm | hm
    · rw [← hm]
      exact List.mem_append_left _ h
    · exact List.mem_append_right _ (ih hm)

theorem mem_edges_unique {T : Type} {es : List (Nat × Node T)}
    (hs : labelsSorted es = true) {lab : Nat} {c1 c2 : Node T}
    (h1 : (lab, c1) ∈ es) (h2 : (lab, c2) ∈ es) : c1 = c2 := by
  induction es with
  | nil => cases h1
  | cons e es ih =>
    obtain ⟨hs', hlt⟩ := labelsSorted_cons hs
    rcases List.mem_cons.mp h1 with h1 | h1 <;>
      rcases List.mem_cons.mp h2 with h2 | h2
    · rw [← h1] at h2
      exact (Prod.mk.injEq .. ▸ h2.symm).2
    · have := hlt _ h2
      rw [← h1] at this
      simp at this
    · have := hlt _ h1
      rw [← h2] at this
      simp at this
    · exact ih hs' h1 h2

theorem walkE_mem_label {T : Type} {p' : Key} {es : List (Nat × Node T)}
    (hc : childrenValid p' es = true) {kv : Key × T}
    (h : kv ∈ walkListE es) {c : Nat} {u : Key}
    (hk : kv.1 = p' ++ c :: u) :
    ∃ cn, (c, cn) ∈ es ∧ kv ∈ walkList cn := by
  obtain ⟨lab, cn, hm, hkv⟩ := mem_walkListE h
  obtain ⟨w, hw⟩ := child_key_shape hc hm hkv
  have hlc : lab = c := by
    rw [hw] at hk
    have := List.append_cancel_left hk
    exact (List.cons.injEq .. ▸ this).1
  exact ⟨cn, hlc ▸ hm, hkv⟩

theorem append_ne_self {p' u : Key} (hu : u ≠ []) : p' ++ u ≠ p' := by
  intro h
  have := congrArg List.length h
  simp [List.length_append] at this
  cases u with
  | nil => exact hu rfl
  | cons a as => simp at this

/-- The leaf of a node cannot carry a strictly longer key than the node's
accumulated path; this discharges "the searched key is not this node's
leaf" goals. -/
theorem leaf_mem_key_eq {T : Type} {lf : Option (LeafNode T)} {pp : Key}
    (hl : ∀ l, lf = some l → l.key = pp) {kv : Key × T}
    (hmem : kv ∈ leafPairs lf) : kv.1 = pp := by
  cases lf with
  | none => simp [leafPairs] at hmem
  | some l =>
    simp only [leafPairs, List.mem_singleton] at hmem
    rw [hmem]
    exact hl l rfl

/-- The descent invariant of `Get`: at a node whose accumulated path above
is `p`, looking up the remaining `k` finds `some v` exactly when the
subtree holds the absolute key `p ++ n.pfx ++ k`. -/
theorem get_walk {T : Type} (n : Node T) :
    ∀ (p k : Key), validSub p n = true →
    ∀ v : T, (get n k = some v ↔ (p ++ n.pfx ++ k, v) ∈ walkList n) := by
  induction n using node_strong_ind with
  | ind n IH =>
    intro p k h v
    cases n with
    | mk lf pf es =>
      rw [validSub_mk] at h
      obtain ⟨hl, hs, hc⟩ := h
      simp only [Node.pfx]
      have hlmem : ∀ kv : Key × T, kv ∈ leafPairs lf → kv.1 = p ++ pf :=
        fun kv hkv => leaf_mem_key_eq hl hkv
      cases k with
      | nil =>
        rw [get_nil, walkList_mk]
        simp only [Node.leaf, List.append_nil]
        constructor
        · intro hv
          cases lf with
          | none => simp at hv
          | some l =>
            simp at hv
            apply List.mem_append_left
            simp [leafPairs]
            exact ⟨(hl l rfl).symm, hv.symm⟩
        · intro hmem
          rcases List.mem_append.mp hmem with hmem | hmem
          · cases lf with
            | none => simp [leafPairs] at hmem
            | some l =>
              simp only [leafPairs, List.mem_singleton] at hmem
              have := (Prod.mk.injEq .. ▸ hmem.symm).2
              simp
              exact this
          · obtain ⟨lab, cn, hm, hkv⟩ := mem_walkListE hmem
            obtain ⟨w, hw⟩ := child_key_shape hc hm hkv
            simp only at hw
            exact absurd hw.symm (append_ne_self (by simp))
      | cons c rest =>
        have hedges : (Node.mk lf pf es).edges = es := rfl
        cases hge : getEdge (Node.mk lf pf es) c with
        | none =>
          rw [get_cons_none hge, walkList_mk]
          have hnone := (getEdge_eq_none_iff (n := Node.mk lf pf es)
            (hedges ▸ hs)).mp hge
          rw [hedges] at hnone
          constructor
          · intro hv; exact absurd hv (by simp)
          · intro hmem
            exfalso
            rcases List.mem_append.mp hmem with hmem | hmem
            · have hkey := hlmem _ hmem
              simp only at hkey
              exact append_ne_self (by simp) hkey
            · obtain ⟨cn, hm, _⟩ := walkE_mem_label (c := c) (u := rest)
                hc hmem rfl
              exact hnone cn hm
        | some child =>
          have hmemc : (c, child) ∈ es := hedges ▸ getEdge_mem hge
          obtain ⟨hcne, hchead, hcnem, hcval⟩ := childrenValid_mem hc hmemc
          rw [get_cons_some hge, walkList_mk]
          by_cases hp : hasPfx (c :: rest) child.pfx = true
          · rw [if_pos hp]
            have hdrop := hasPfx_drop hp
            have ihc := IH child (sizeOf_child_lt hmemc) (p ++ pf)
              ((c :: rest).drop child.pfx.length) hcval v
            rw [ihc]
            have hkeyeq : p ++ pf ++ child.pfx ++
                ((c :: rest).drop child.pfx.length) = p ++ pf ++ c :: rest := by
              rw [List.append_assoc (p ++ pf) child.pfx, ← hdrop]
            constructor
            · intro hmem
              apply List.mem_append_right
              apply mem_walkListE_of_mem hmemc
              rw [← hkeyeq]
              exact hmem
            · intro hmem
              rcases List.mem_append.mp hmem with hmem | hmem
              · exfalso
                have hkey := hlmem _ hmem
                simp only at hkey
                exact append_ne_self (by simp) hkey
              · obtain ⟨cn, hm, hmem'⟩ := walkE_mem_label (c := c) (u := rest)
                  hc hmem rfl
                have : cn = child := mem_edges_unique hs hm hmemc
                rw [this] at hmem'
                rw [hkeyeq]
                exact hmem'
          · rw [if_neg hp]
            constructor
            · intro hv; exact absurd hv (by simp)
            · intro hmem
              exfalso
              rcases List.mem_append.mp hmem with hmem | hmem
              · have hkey := hlmem _ hmem
                simp only at hkey
                exact append_ne_self (by simp) hkey
              · obtain ⟨cn, hm, hmem'⟩ := walkE_mem_label (c := c) (u := rest)
                  hc hmem rfl
                have hcn : cn = child := mem_edges_unique hs hm hmemc
                rw [hcn] at hmem'
                obtain ⟨w, hw⟩ := walk_key_shape child (p ++ pf) hcval _ hmem'
                simp only at hw
                have h2 : (p ++ pf) ++ (c :: rest) =
                    (p ++ pf) ++ (child.pfx ++ w) := by
                  rw [← List.append_assoc]
                  exact hw
                have h3 := List.append_cancel_left h2
                exact absurd (hasPfx_iff.mpr ⟨w, h3⟩) hp

theorem validRoot_parts {T : Type} {n : Node T} (h : validRoot n = true) :
    n.pfx = [] ∧ validSub [] n = true := by
  unfold validRoot at h
  rw [Bool.and_eq_true] at h
  exact ⟨List.isEmpty_iff.mp h.1, h.2⟩

/-- `Minimum` returns the head of the pre-order leaf sequence. -/
theorem minimum_spec {T : Type} (n : Node T) :
    ∀ p : Key, validSub p n = true →
    minimum n = (walkList n).head? := by
  induction n using node_strong_ind with
  | ind n IH =>
    intro p h
    cases n with
    | mk lf pf es =>
      rw [validSub_mk] at h
      obtain ⟨hl, hs, hc⟩ := h
      cases lf with
      | some l =>
        rw [minimum, walkList_mk]
        simp [leafPairs]
      | none =>
        cases es with
        | nil =>
          rw [minimum, walkList_mk]
          simp [leafPairs, walkListE]
        | cons e es' =>
          obtain ⟨lab, c⟩ := e
          rw [childrenValid_cons] at hc
          rw [minimum, walkList_mk, walkListE_cons]
          simp only [leafPairs, List.nil_append]
          have hne := walk_ne_nil c (p ++ pf) hc.2.2.2.1 hc.2.2.1
          rw [List.head?_append_of_ne_nil _ hne]
          exact IH c (sizeOf_child_lt (List.mem_cons_self ..)) (p ++ pf)
            hc.2.2.2.1

theorem walkListE_getLast {T : Type} {p' : Key} (es : List (Nat × Node T))
    (hc : childrenValid p' es = true) (hne : es ≠ []) :
    walkListE es ≠ [] ∧
    (walkListE es).getLast? = (walkList (es.getLast hne).2).getLast? := by
  induction es with
  | nil => exact absurd rfl hne
  | cons e es' ih =>
    obtain ⟨lab, c⟩ := e
    rw [childrenValid_cons] at hc
    have hwc := walk_ne_nil c p' hc.2.2.2.1 hc.2.2.1
    cases es' with
    | nil =>
      rw [walkListE_cons, walkListE]
      constructor
      · simpa using hwc
      · simp [List.getLast_singleton]
    | cons f fs =>
      obtain ⟨r1, r2⟩ := ih hc.2.2.2.2 (by simp)
      rw [walkListE_cons]
      constructor
      · intro hcontra
        exact r1 (List.append_eq_nil.mp hcontra).2
      · rw [List.getLast?_append_of_ne_nil _ r1, r2]
        congr 1

/-- `Maximum` returns the last element of the pre-order leaf sequence. -/
theorem maximum_spec {T : Type} (n : Node T) :
    ∀ p : Key, validSub p n = true →
    maximum n = (walkList n).getLast? := by
  induction n using node_strong_ind with
  | ind n IH =>
    intro p h
    cases n with
    | mk lf pf es =>
      rw [validSub_mk] at h
      obtain ⟨hl, hs, hc⟩ := h
      cases es with
      | nil =>
        rw [maximum, walkList_mk, walkListE]
        cases lf <;> simp [leafPairs]
      | cons e es' =>
        rw [maximum, walkList_mk]
        obtain ⟨r1, r2⟩ := walkListE_getLast (e :: es') hc (by simp)
        rw [List.getLast?_append_of_ne_nil _ r1, r2]
        have hmem := List.getLast_mem (l := e :: es') (by simp)
        cases hgl : (e :: es').getLast (by simp) with
        | mk lab c =>
          rw [hgl] at hmem
          have hcv := childrenValid_mem hc hmem
          have := IH c (sizeOf_child_lt hmem) (p ++ pf) hcv.2.2.2
          simp only
          rw [this]

/-- Convert the `bytesCompare`-phrased sortedness to the Boolean `keyLt`
order on keys. -/
theorem walk_sorted_keyLt {T : Type} (n : Node T) (p : Key)
    (h : validSub p n = true) :
    List.Pairwise (fun a b : Key × T => keyLt a.1 b.1 = true) (walkList n) :=
  (walk_sorted n p h).imp (fun hab => keyLt_iff.mpr hab)

/-- C1: on a tree satisfying the §3 structural invariants, `Get(k)`
returns `(v, true)` exactly when the tree contains a leaf with key `k`
and value `v` (the pre-order walk lists exactly the leaves); otherwise it
returns `(zero, false)`, modelled as `none`. -/
theorem C1_get_iff_contains {T : Type} (n : Node T) (k : Key)
    (h : validRoot n = true) (v : T) :
    get n k = some v ↔ (k, v) ∈ walkList n := by
  obtain ⟨h1, h2⟩ := validRoot_parts h
  have hgw := get_walk n [] k h2 v
  rw [h1] at hgw
  simpa using hgw

/-- Example tree holding the keys `"a"` and `"ab"`. -/
def exChild2 : Node Nat := .mk (some ⟨[97, 98], 1⟩) [98] []

/-- Intermediate node of the example tree (key `"a"`, child `"ab"`). -/
def exChild1 : Node Nat := .mk (some ⟨[97], 0⟩) [97] [(98, exChild2)]

/-- Root of the example tree with keys `"a"` and `"ab"`. -/
def exNode : Node Nat := .mk none [] [(97, exChild1)]

theorem exNode_validRoot : validRoot exNode = true := by
  simp [exNode, exChild1, exChild2, validRoot, validSub, childrenValid,
    labelsSorted, Node.edges, Node.leaf, Node.pfx]

theorem exNode_walkList : walkList exNode = [([97], 0), ([97, 98], 1)] := by
  simp [exNode, exChild1, exChild2, walkList, walkListE, leafPairs]

/-- Witness for C1 at the concrete example tree. -/
theorem C1_witness :
    validRoot exNode = true ∧
    (get exNode [97] = some 0 ↔ ([97], 0) ∈ walkList exNode) :=
  ⟨exNode_validRoot, C1_get_iff_contains exNode [97] exNode_validRoot 0⟩

/-- C7: `Minimum` returns the least key (the head of the strictly
ascending pre-order leaf sequence, reached by following edge 0 to the
first leaf-bearing node), `Maximum` the greatest (the last element,
reached through last edges with internal leaves shadowed), and both
return `none` (Go `nil, zero, false`) exactly on the empty tree. -/
theorem C7_minimum_maximum {T : Type} (n : Node T) (h : validRoot n = true) :
    minimum n = (walkList n).head? ∧ maximum n = (walkList n).getLast? ∧
    List.Pairwise (fun a b : Key × T => keyLt a.1 b.1 = true) (walkList n) := by
  obtain ⟨h1, h2⟩ := validRoot_parts h
  exact ⟨minimum_spec n [] h2, maximum_spec n [] h2, walk_sorted_keyLt n [] h2⟩

/-- Witness for C7 at the concrete example tree. -/
theorem C7_witness :
    validRoot exNode = true ∧
    (minimum exNode = (walkList exNode).head? ∧
     maximum exNode = (walkList exNode).getLast? ∧
     List.Pairwise (fun a b : Key × Nat => keyLt a.1 b.1 = true)
       (walkList exNode)) :=
  ⟨exNode_validRoot, C7_minimum_maximum exNode exNode_validRoot⟩


theorem hasPfx_length_le {s p : Key} (h : hasPfx s p = true) :
    p.length ≤ s.length := by
  obtain ⟨w, rfl⟩ := hasPfx_iff.mp h
  simp

theorem hasPfx_self (k : Key) : hasPfx k k = true :=
  hasPfx_iff.mpr ⟨[], by simp⟩

theorem hasPfx_append (p w : Key) : hasPfx (p ++ w) p = true :=
  hasPfx_iff.mpr ⟨w, rfl⟩

theorem hasPfx_append_cancel {p u v : Key} :
    hasPfx (p ++ u) (p ++ v) = hasPfx u v := by
  induction p with
  | nil => rfl
  | cons a as ih => simp [hasPfx, ih]

theorem hasPfx_of_append {k A B : Key} (h : hasPfx k (A ++ B) = true) :
    hasPfx k A = true := by
  obtain ⟨w, hw⟩ := hasPfx_iff.mp h
  exact hasPfx_iff.mpr ⟨B ++ w, by rw [hw, List.append_assoc]⟩

theorem hasPfx_false_of_longer {k s : Key} (h : k.length < s.length) :
    hasPfx k s = false := by
  cases hp : hasPfx k s with
  | false => rfl
  | true => exact absurd (hasPfx_length_le hp) (by omega)

theorem pfx_of_pfx {a b k : Key} (ha : hasPfx k a = true)
    (hb : hasPfx k b = true) (hl : a.length ≤ b.length) :
    hasPfx b a = true := by
  obtain ⟨x, hx⟩ := hasPfx_iff.mp ha
  obtain ⟨y, hy⟩ := hasPfx_iff.mp hb
  have hta : a = k.take a.length := by
    rw [hx]
    simp
  have htb : b = k.take b.length := by
    rw [hy]
    simp
  have hab : a = b.take a.length := by
    conv_lhs => rw [hta]
    conv_rhs => rw [htb]
    rw [List.take_take, Nat.min_eq_left hl]
  exact hasPfx_iff.mpr ⟨b.drop a.length, by
    conv_lhs => rw [← List.take_append_drop a.length b]
    rw [← hab]⟩

theorem pfx_lt_length {a b k : Key} (ha : hasPfx k a = true)
    (hb : hasPfx k b = true) (hlt : bytesCompare a b = .lt) :
    a.length ≤ b.length := by
  by_contra hc
  have hpfx := pfx_of_pfx hb ha (by omega)
  obtain ⟨x, hx⟩ := hasPfx_iff.mp hpfx
  have hxne : x ≠ [] := by
    intro hxe
    rw [hxe, List.append_nil] at hx
    rw [hx] at hc
    omega
  have h1 : bytesCompare b a = .lt := by
    rw [hx]
    exact bytesCompare_self_append b hxne
  have h2 := bytesCompare_gt_of_lt hlt
  rw [h1] at h2
  cases h2

theorem sorted_getLast_max {T : Type} {l : List (Key × T)}
    (hs : List.Pairwise (fun a b : Key × T => bytesCompare a.1 b.1 = .lt) l)
    {m x : Key × T} (hl : l.getLast? = some m) (hx : x ∈ l) :
    x = m ∨ bytesCompare x.1 m.1 = .lt := by
  induction l with
  | nil => cases hx
  | cons a l' ih =>
    cases l' with
    | nil =>
      simp at hl hx
      rw [hx, hl]
      left
      rfl
    | cons b l'' =>
      have hl' : (b :: l'').getLast? = some m := by
        rw [List.getLast?_cons_cons] at hl
        exact hl
      rcases List.mem_cons.mp hx with hx | hx
      · right
        have hm : m ∈ b :: l'' := List.mem_of_mem_getLast? hl'
        rw [hx]
        exact (List.pairwise_cons.mp hs).1 m hm
      · exact ih (List.pairwise_cons.mp hs).2 hl' hx

/-- The "last recorded leaf" of the `LongestPrefix` loop as a function of
the candidate list: the last filtered pair if there is one, else the
incoming `last`. -/
def lastOrLeaf {T : Type} (fl : List (Key × T))
    (last : Option (LeafNode T)) : Option (LeafNode T) :=
  match fl.getLast? with
  | some kv => some ⟨kv.1, kv.2⟩
  | none => last

theorem lastOrLeaf_append_leaf {T : Type} (lf : Option (LeafNode T))
    (X : List (Key × T)) (last : Option (LeafNode T)) :
    lastOrLeaf (leafPairs lf ++ X) last =
      lastOrLeaf X (lf.elim last some) := by
  cases hX : X with
  | nil =>
    rw [List.append_nil]
    cases lf with
    | none => rfl
    | some l =>
      unfold lastOrLeaf
      simp [leafPairs, Option.elim]
  | cons x xs =>
    unfold lastOrLeaf
    rw [List.getLast?_append_of_ne_nil _ (by simp)]
    cases hgl : (x :: xs).getLast? with
    | none => simp at hgl
    | some m => rfl

theorem filter_walkE_none {T : Type} {p' : Key} {es : List (Nat × Node T)}
    (hc : childrenValid p' es = true) {c : Nat}
    (hnone : ∀ cn, (c, cn) ∉ es) (rest : Key) :
    (walkListE es).filter (fun kv => hasPfx (p' ++ c :: rest) kv.1) = [] := by
  rw [List.filter_eq_nil_iff]
  intro kv hkv
  obtain ⟨lab, cn, hm, hkv'⟩ := mem_walkListE hkv
  obtain ⟨w, hw⟩ := child_key_shape hc hm hkv'
  have hlabne : lab ≠ c := by
    intro hcontra
    rw [hcontra] at hm
    exact hnone cn hm
  rw [hw]
  simp only [Bool.not_eq_true]
  rw [hasPfx_append_cancel]
  cases hp : hasPfx (c :: rest) (lab :: w) with
  | false => rfl
  | true =>
    obtain ⟨x, hx⟩ := hasPfx_iff.mp hp
    rw [List.cons_append] at hx
    exact absurd (List.cons.injEq .. ▸ hx).1 (fun he => hlabne he.symm)


theorem filter_walk_label_ne {T : Type} {p' : Key} {es : List (Nat × Node T)}
    (hc : childrenValid p' es = true) {lab : Nat} {cn : Node T}
    (hm : (lab, cn) ∈ es) {c : Nat} (hne : lab ≠ c) (rest : Key) :
    (walkList cn).filter (fun kv => hasPfx (p' ++ c :: rest) kv.1) = [] := by
  rw [List.filter_eq_nil_iff]
  intro kv hkv
  obtain ⟨w, hw⟩ := child_key_shape hc hm hkv
  rw [hw]
  simp only [Bool.not_eq_true]
  rw [hasPfx_append_cancel]
  cases hp : hasPfx (c :: rest) (lab :: w) with
  | false => rfl
  | true =>
    obtain ⟨x, hx⟩ := hasPfx_iff.mp hp
    rw [List.cons_append] at hx
    exact absurd (List.cons.injEq .. ▸ hx).1 (fun he => hne he.symm)

theorem filter_walkE_child {T : Type} {p' : Key} {es : List (Nat × Node T)}
    (hs : labelsSorted es = true) (hc : childrenValid p' es = true)
    {c : Nat} {child : Node T} (hm : (c, child) ∈ es) (rest : Key) :
    (walkListE es).filter (fun kv => hasPfx (p' ++ c :: rest) kv.1) =
      (walkList child).filter (fun kv => hasPfx (p' ++ c :: rest) kv.1) := by
  induction es with
  | nil => cases hm
  | cons e es' ih =>
    obtain ⟨lab, cn⟩ := e
    have hc' := childrenValid_cons.mp hc
    rw [walkListE_cons, List.filter_append]
    rcases List.mem_cons.mp hm with hm0 | hm0
    · obtain ⟨hlab, hcn⟩ := Prod.mk.injEq .. ▸ hm0
      have hnone : ∀ cn2, (c, cn2) ∉ es' := by
        intro cn2 hmm
        have := (labelsSorted_cons hs).2 _ hmm
        simp only at this
        omega
      rw [filter_walkE_none hc'.2.2.2.2 hnone rest]
      rw [List.append_nil]
      rw [hcn]
    · have hlabne : lab ≠ c := by
        intro hcontra
        have := (labelsSorted_cons hs).2 _ hm0
        simp only at this
        omega
      rw [filter_walk_label_ne (childrenValid_cons.mpr hc')
        (List.mem_cons_self ..) hlabne rest]
      rw [List.nil_append]
      exact ih (labelsSorted_cons hs).1 hc'.2.2.2.2 hm0

theorem filter_walkE_no_ext {T : Type} {p' : Key} {es : List (Nat × Node T)}
    (hc : childrenValid p' es = true) :
    (walkListE es).filter (fun kv => hasPfx p' kv.1) = [] := by
  rw [List.filter_eq_nil_iff]
  intro kv hkv
  obtain ⟨lab, cn, hm, hkv'⟩ := mem_walkListE hkv
  obtain ⟨w, hw⟩ := child_key_shape hc hm hkv'
  rw [hw]
  simp only [Bool.not_eq_true]
  exact hasPfx_false_of_longer (by simp)

theorem filter_leafPairs_all {T : Type} {lf : Option (LeafNode T)}
    {q : Key} (hl : ∀ l, lf = some l → l.key = q) (w : Key) :
    (leafPairs lf).filter (fun kv => hasPfx (q ++ w) kv.1) = leafPairs lf := by
  cases lf with
  | none => rfl
  | some l =>
    simp only [leafPairs, List.filter_cons]
    rw [hl l rfl]
    rw [if_pos]
    · rfl
    · simp [hasPfx_append]


/-- The loop invariant of `LongestPrefix`: at a node with accumulated
path `p` and remaining search `search`, the loop returns the deepest
recorded leaf, i.e. the last element of the subtree's walk filtered to
keys that are prefixes of the full key, falling back to `last`. -/
theorem longestPrefixAux_spec {T : Type} (n : Node T) :
    ∀ (p search : Key) (last : Option (LeafNode T)), validSub p n = true →
    longestPrefixAux n search last =
      lastOrLeaf ((walkList n).filter
        (fun kv => hasPfx (p ++ n.pfx ++ search) kv.1)) last := by
  induction n using node_strong_ind with
  | ind n IH =>
    intro p search last h
    cases n with
    | mk lf pf es =>
      rw [validSub_mk] at h
      obtain ⟨hl, hs, hc⟩ := h
      simp only [Node.pfx]
      rw [walkList_mk, List.filter_append]
      cases search with
      | nil =>
        rw [longestPrefixAux_nil]
        rw [List.append_nil (p ++ pf)]
        have hfl0 := filter_leafPairs_all (q := p ++ pf) hl []
        rw [List.append_nil] at hfl0
        rw [hfl0, filter_walkE_no_ext hc, List.append_nil]
        cases lf with
        | none => rfl
        | some l =>
          unfold lastOrLeaf
          simp [leafPairs, Option.elim, Node.leaf]
      | cons c rest =>
        have hedges : (Node.mk lf pf es).edges = es := rfl
        have hfl : (leafPairs lf).filter
            (fun kv => hasPfx (p ++ pf ++ c :: rest) kv.1) = leafPairs lf :=
          filter_leafPairs_all (q := p ++ pf) hl (c :: rest)
        rw [hfl]
        cases hge : getEdge (Node.mk lf pf es) c with
        | none =>
          rw [longestPrefixAux_cons_none hge]
          have hnone := (getEdge_eq_none_iff (n := Node.mk lf pf es)
            (hedges ▸ hs)).mp hge
          rw [hedges] at hnone
          rw [filter_walkE_none hc hnone rest, List.append_nil]
          cases lf with
          | none => rfl
          | some l =>
            unfold lastOrLeaf
            simp [leafPairs, Option.elim, Node.leaf]
        | some child =>
          have hmemc : (c, child) ∈ es := hedges ▸ getEdge_mem hge
          obtain ⟨hcne, hchead, hcnem, hcval⟩ := childrenValid_mem hc hmemc
          rw [filter_walkE_child hs hc hmemc rest]
          by_cases hp : hasPfx (c :: rest) child.pfx = true
          · rw [longestPrefixAux_cons_some hge, if_pos hp]
            simp only [Node.leaf]
            have hdrop := hasPfx_drop hp
            have ihc := IH child (sizeOf_child_lt hmemc) (p ++ pf)
              ((c :: rest).drop child.pfx.length) (Option.elim lf last some)
              hcval
            rw [ihc]
            have hkeyeq : p ++ pf ++ child.pfx ++
                ((c :: rest).drop child.pfx.length) = p ++ pf ++ c :: rest := by
              rw [List.append_assoc (p ++ pf) child.pfx, ← hdrop]
            rw [hkeyeq]
            rw [lastOrLeaf_append_leaf]
          · rw [longestPrefixAux_cons_some hge, if_neg hp]
            have hnil : (walkList child).filter
                (fun kv => hasPfx (p ++ pf ++ c :: rest) kv.1) = [] := by
              rw [List.filter_eq_nil_iff]
              intro kv hkv
              obtain ⟨w, hw⟩ := walk_key_shape child (p ++ pf) hcval kv hkv
              rw [hw]
              simp only [Bool.not_eq_true]
              cases hpp : hasPfx (p ++ pf ++ c :: rest)
                  (p ++ pf ++ child.pfx ++ w) with
              | false => rfl
              | true =>
                exfalso
                have h1 : hasPfx (p ++ pf ++ c :: rest)
                    (p ++ pf ++ child.pfx) = true :=
                  hasPfx_of_append (A := p ++ pf ++ child.pfx) (B := w) hpp
                have h2 : hasPfx (c :: rest) child.pfx = true := by
                  have h3 : hasPfx ((p ++ pf) ++ c :: rest)
                      ((p ++ pf) ++ child.pfx) = true := h1
                  rwa [hasPfx_append_cancel] at h3
                exact hp h2
            rw [hnil, List.append_nil]
            cases lf with
            | none => rfl
            | some l =>
              unfold lastOrLeaf
              simp [leafPairs, Option.elim, Node.leaf]


/-- `LongestPrefix` as a whole: the last element of the walk filtered to
prefixes of `k`. -/
theorem longestPfxMatch_spec {T : Type} (n : Node T) (k : Key)
    (h : validRoot n = true) :
    longestPfxMatch n k =
      ((walkList n).filter (fun kv => hasPfx k kv.1)).getLast? := by
  obtain ⟨h1, h2⟩ := validRoot_parts h
  unfold longestPfxMatch
  have hspec := longestPrefixAux_spec n [] k none h2
  rw [h1] at hspec
  simp only [List.nil_append] at hspec
  rw [hspec]
  unfold lastOrLeaf
  cases hgl : ((walkList n).filter (fun kv => hasPfx k kv.1)).getLast? with
  | none => rfl
  | some kv => rfl

/-- C6: `LongestPrefix(k)` returns the longest key of the tree that is a
prefix of `k` together with its value, and returns `none` (Go
`nil, zero, false`) exactly when no key of the tree is a prefix of `k`. -/
theorem C6_longest_prefix {T : Type} (n : Node T) (k : Key)
    (h : validRoot n = true) :
    (∀ k' v, longestPfxMatch n k = some (k', v) →
      (k', v) ∈ walkList n ∧ hasPfx k k' = true ∧
      ∀ kv ∈ walkList n, hasPfx k kv.1 = true → kv.1.length ≤ k'.length) ∧
    (longestPfxMatch n k = none ↔
      ∀ kv ∈ walkList n, hasPfx k kv.1 = false) := by
  obtain ⟨h1, h2⟩ := validRoot_parts h
  have hspec := longestPfxMatch_spec n k h
  have hsorted : List.Pairwise
      (fun a b : Key × T => bytesCompare a.1 b.1 = .lt)
      ((walkList n).filter (fun kv => hasPfx k kv.1)) :=
    List.Pairwise.filter _ (walk_sorted n [] h2)
  constructor
  · intro k' v hv
    rw [hspec] at hv
    have hmemf : (k', v) ∈ (walkList n).filter (fun kv => hasPfx k kv.1) :=
      List.mem_of_mem_getLast? hv
    have hmemw : (k', v) ∈ walkList n := List.mem_of_mem_filter hmemf
    have hpred : hasPfx k k' = true := (List.mem_filter.mp hmemf).2
    refine ⟨hmemw, hpred, ?_⟩
    intro kv hkv hkvp
    have hkvf : kv ∈ (walkList n).filter (fun kv => hasPfx k kv.1) :=
      List.mem_filter.mpr ⟨hkv, hkvp⟩
    rcases sorted_getLast_max hsorted hv hkvf with heq | hlt
    · rw [heq]
    · exact pfx_lt_length hkvp hpred hlt
  · rw [hspec, List.getLast?_eq_none_iff, List.filter_eq_nil_iff]
    constructor
    · intro hall kv hkv
      have := hall kv hkv
      simp only [Bool.not_eq_true] at this
      exact this
    · intro hall kv hkv
      rw [hall kv hkv]
      simp

/-- Witness for C6 at the concrete example tree. -/
theorem C6_witness :
    validRoot exNode = true ∧
    ((∀ k' v, longestPfxMatch exNode [97, 99] = some (k', v) →
      (k', v) ∈ walkList exNode ∧ hasPfx [97, 99] k' = true ∧
      ∀ kv ∈ walkList exNode, hasPfx [97, 99] kv.1 = true →
        kv.1.length ≤ k'.length) ∧
    (longestPfxMatch exNode [97, 99] = none ↔
      ∀ kv ∈ walkList exNode, hasPfx [97, 99] kv.1 = false)) :=
  ⟨exNode_validRoot, C6_longest_prefix exNode [97, 99] exNode_validRoot⟩


mutual
/-- The visit sequence of `reverseRecursiveWalk` (hence of `WalkBackwards`)
with a callback that never aborts: the node's leaf FIRST, then the
children in reverse edge order (`for i := len(edges)-1; i >= 0; i--`). -/
def reverseWalkList {T : Type} : Node T → List (Key × T)
  | .mk l _ es => leafPairs l ++ reverseWalkListE es
/-- `reverseRecursiveWalk` over an edge list, last edge first. -/
def reverseWalkListE {T : Type} : List (Nat × Node T) → List (Key × T)
  | [] => []
  | e :: es => reverseWalkListE es ++ reverseWalkList e.2
end

theorem reverseWalkList_mk {T : Type} (l : Option (LeafNode T)) (p : Key)
    (es : List (Nat × Node T)) :
    reverseWalkList (.mk l p es) = leafPairs l ++ reverseWalkListE es := by
  rw [reverseWalkList]

theorem reverseWalkListE_cons {T : Type} (e : Nat × Node T)
    (es : List (Nat × Node T)) :
    reverseWalkListE (e :: es) = reverseWalkListE es ++ reverseWalkList e.2 := by
  rw [reverseWalkListE]

mutual
/-- No node of the tree carries both a leaf and a non-empty edge list. -/
def noInnerLeaf {T : Type} : Node T → Bool
  | .mk l _ es => (l.isNone || es.isEmpty) && noInnerLeafE es
/-- `noInnerLeaf` over an edge list. -/
def noInnerLeafE {T : Type} : List (Nat × Node T) → Bool
  | [] => true
  | e :: es => noInnerLeaf e.2 && noInnerLeafE es
end

theorem noInnerLeafE_mem {T : Type} {es : List (Nat × Node T)}
    (h : noInnerLeafE es = true) {lab : Nat} {c : Node T}
    (hm : (lab, c) ∈ es) : noInnerLeaf c = true := by
  induction es with
  | nil => cases hm
  | cons e es ih =>
    rw [noInnerLeafE] at h
    rw [Bool.and_eq_true] at h
    rcases List.mem_cons.mp hm with hm | hm
    · rw [← hm] at h
      exact h.1
    · exact ih h.2 hm

theorem reverseWalkE_perm_aux {T : Type} (es : List (Nat × Node T))
    (hrec : ∀ lab c, (lab, c) ∈ es →
      (reverseWalkList c).Perm (walkList c)) :
    (reverseWalkListE es).Perm (walkListE es) := by
  induction es with
  | nil => rw [reverseWalkListE, walkListE]
  | cons e es ih =>
    rw [reverseWalkListE_cons, walkListE_cons]
    refine List.Perm.trans (List.Perm.append ?_ ?_) List.perm_append_comm
    · exact ih (fun lab c hm => hrec lab c (List.mem_cons_of_mem _ hm))
    · exact hrec e.1 e.2 (by
        rw [show (e.1, e.2) = e from rfl]
        exact List.mem_cons_self ..)

theorem reverseWalk_perm {T : Type} (n : Node T) :
    (reverseWalkList n).Perm (walkList n) := by
  induction n using node_strong_ind with
  | ind n IH =>
    cases n with
    | mk lf pf es =>
      rw [reverseWalkList_mk, walkList_mk]
      exact List.Perm.append_left _
        (reverseWalkE_perm_aux es
          (fun lab c hm => IH c (sizeOf_child_lt hm)))

theorem reverseWalkE_rev_aux {T : Type} (es : List (Nat × Node T))
    (hrec : ∀ lab c, (lab, c) ∈ es → noInnerLeaf c = true →
      reverseWalkList c = (walkList c).reverse)
    (hno : noInnerLeafE es = true) :
    reverseWalkListE es = (walkListE es).reverse := by
  induction es with
  | nil => rw [reverseWalkListE, walkListE]; rfl
  | cons e es ih =>
    rw [noInnerLeafE, Bool.and_eq_true] at hno
    rw [reverseWalkListE_cons, walkListE_cons, List.reverse_append]
    rw [ih (fun lab c hm hn => hrec lab c (List.mem_cons_of_mem _ hm) hn)
      hno.2]
    rw [hrec e.1 e.2 (by
      rw [show (e.1, e.2) = e from rfl]
      exact List.mem_cons_self ..) hno.1]

theorem reverseWalk_rev {T : Type} (n : Node T) :
    noInnerLeaf n = true → reverseWalkList n = (walkList n).reverse := by
  induction n using node_strong_ind with
  | ind n IH =>
    intro hno
    cases n with
    | mk lf pf es =>
      rw [noInnerLeaf, Bool.and_eq_true] at hno
      rw [reverseWalkList_mk, walkList_mk, List.reverse_append]
      rw [reverseWalkE_rev_aux es
        (fun lab c hm hn => IH c (sizeOf_child_lt hm) hn) hno.2]
      rcases Bool.or_eq_true .. ▸ hno.1 with h1 | h1
      · have hlf : lf = none := Option.isNone_iff_eq_none.mp h1
        rw [hlf]
        simp [leafPairs]
      · have hes : es = [] := List.isEmpty_iff.mp h1
        rw [hes, walkListE]
        cases lf <;> simp [leafPairs]


/-- C5 counterexample: on the §3-valid tree holding the keys `"a"` and
`"ab"`, `WalkBackwards` emits `"a"` (the parent's leaf) before `"ab"`
(its descendant), so its output is neither the reverse of `Walk`'s nor
descending. -/
theorem C5_counterexample :
    validRoot exNode = true ∧
    reverseWalkList exNode ≠ (walkList exNode).reverse := by
  refine ⟨exNode_validRoot, ?_⟩
  rw [exNode_walkList]
  have hrev : reverseWalkList exNode = [([97], 0), ([97, 98], 1)] := by
    simp [exNode, exChild1, exChild2, reverseWalkList, reverseWalkListE,
      leafPairs]
  rw [hrev]
  simp

/-- C5 amended: `WalkBackwards` visits every leaf exactly once (its
output is a permutation of `Walk`'s), each node's leaf emitted before its
children, which are traversed in descending label order; its output is
the exact reverse of `Walk`'s whenever no node carries both a leaf and a
non-empty edge list. -/
theorem C5_walkbackwards {T : Type} (n : Node T) :
    (reverseWalkList n).Perm (walkList n) ∧
    (noInnerLeaf n = true → reverseWalkList n = (walkList n).reverse) :=
  ⟨reverseWalk_perm n, reverseWalk_rev n⟩

/-- A flat example tree (keys `"a"`, `"b"`) with no internal leaves. -/
def exFlat : Node Nat :=
  .mk none [] [(97, .mk (some ⟨[97], 0⟩) [97] []),
               (98, .mk (some ⟨[98], 1⟩) [98] [])]

/-- Witness for the amended C5 at a tree with no internal leaves. -/
theorem C5_witness :
    (reverseWalkList exFlat).Perm (walkList exFlat) ∧
    reverseWalkList exFlat = (walkList exFlat).reverse :=
  ⟨(C5_walkbackwards exFlat).1, (C5_walkbackwards exFlat).2 (by
    simp [exFlat, noInnerLeaf, noInnerLeafE])⟩


theorem pairwise_labelsSorted {T : Type} {es : List (Nat × Node T)}
    (h : List.Pairwise (fun a b : Nat × Node T => a.1 < b.1) es) :
    labelsSorted es = true := by
  induction es with
  | nil => rfl
  | cons e es ih =>
    cases es with
    | nil =>
      obtain ⟨l1, c1⟩ := e
      rfl
    | cons f fs =>
      obtain ⟨l1, c1⟩ := e
      obtain ⟨l2, c2⟩ := f
      rw [labelsSorted, Bool.and_eq_true]
      constructor
      · simp only [decide_eq_true_eq]
        exact (List.pairwise_cons.mp h).1 (l2, c2) (List.mem_cons_self ..)
      · exact ih (List.pairwise_cons.mp h).2

/-- Embedding of `Node.addEdge`: `sort.Search` for the insertion point,
then append-and-shift (Go's `append` + overlapping `copy` + overwrite),
whose net effect is insertion at the found index. -/
def addEdge {T : Type} (n : Node T) (e : Nat × Node T) : Node T :=
  let es := n.edges
  let num := es.length
  let idx := sortSearch (fun i => decide (e.1 ≤ labelAt es i)) 0 num
  if idx = num then .mk n.leaf n.pfx (es ++ [e])
  else .mk n.leaf n.pfx (es.take idx ++ e :: es.drop idx)

/-- Embedding of `Node.delEdge`: remove the edge at the found index when
its label matches, else leave the node unchanged. -/
def delEdge {T : Type} (n : Node T) (label : Nat) : Node T :=
  let es := n.edges
  let num := es.length
  let idx := sortSearch (fun i => decide (label ≤ labelAt es i)) 0 num
  if idx < num ∧ labelAt es idx = label then
    .mk n.leaf n.pfx (es.take idx ++ es.drop (idx + 1))
  else n

/-- Embedding of `Node.replaceEdge`: update the matching edge's child
pointer in place (the stored label is kept); `none` models the
`panic("replacing missing edge")`. -/
def replaceEdge {T : Type} (n : Node T) (e : Nat × Node T) :
    Option (Node T) :=
  let es := n.edges
  let num := es.length
  let idx := sortSearch (fun i => decide (e.1 ≤ labelAt es i)) 0 num
  if idx < num ∧ labelAt es idx = e.1 then
    some (.mk n.leaf n.pfx (es.set idx (labelAt es idx, e.2)))
  else none

/-- Both branches of `addEdge` produce the insertion at the search
index. -/
theorem addEdge_edges {T : Type} (n : Node T) (e : Nat × Node T) :
    (addEdge n e).edges =
      n.edges.take (sortSearch (fun i => decide (e.1 ≤ labelAt n.edges i))
        0 n.edges.length) ++
      e :: n.edges.drop (sortSearch (fun i => decide (e.1 ≤ labelAt n.edges i))
        0 n.edges.length) := by
  simp only [addEdge]
  split
  · rename_i heq
    rw [heq, List.take_length, List.drop_length]
    rfl
  · rfl


/-- C8: on a node with strictly-ascending distinct edge labels, `addEdge`
with a fresh label yields a strictly-ascending edge list containing the
new edge (the old edges plus the new one); `delEdge` yields the sorted
list with the matching edge removed, and is a no-op (not a panic) when no
edge carries the label. -/
theorem C8_addEdge_delEdge {T : Type} (n : Node T) (e : Nat × Node T)
    (lab : Nat) (hs : labelsSorted n.edges = true) :
    ((∀ c, (e.1, c) ∉ n.edges) →
      labelsSorted (addEdge n e).edges = true ∧
      e ∈ (addEdge n e).edges ∧
      (addEdge n e).edges.Perm (e :: n.edges)) ∧
    (labelsSorted (delEdge n lab).edges = true ∧
      (delEdge n lab).edges = n.edges.filter (fun f => f.1 != lab)) ∧
    ((∀ c, (lab, c) ∉ n.edges) → delEdge n lab = n) := by
  have hpw := labelsSorted_pairwise hs
  refine ⟨?_, ?_, ?_⟩
  · -- addEdge
    intro hnot
    obtain ⟨r1, r2, r3⟩ := sortSearch_edges hs e.1
    set idx := sortSearch (fun i => decide (e.1 ≤ labelAt n.edges i)) 0
      n.edges.length with hidx
    have htake : ∀ x ∈ n.edges.take idx, x.1 < e.1 := by
      intro x hx
      obtain ⟨k, hk, hget⟩ := List.mem_iff_getElem.mp hx
      have hk' : k < idx ∧ k < n.edges.length := by
        simp [List.length_take] at hk
        omega
      rw [List.getElem_take] at hget
      rw [← hget]
      exact r2 k hk'.2 hk'.1
    have hdrop : ∀ y ∈ n.edges.drop idx, e.1 < y.1 := by
      intro y hy
      obtain ⟨k, hk, hget⟩ := List.mem_iff_getElem.mp hy
      have hk' : idx + k < n.edges.length := by
        simp [List.length_drop] at hk
        omega
      rw [List.getElem_drop] at hget
      have hidxlt : idx < n.edges.length := by omega
      have hge : e.1 ≤ (n.edges[idx]).1 := r3 hidxlt
      have hne : (n.edges[idx]).1 ≠ e.1 := by
        intro hcontra
        apply hnot (n.edges[idx]).2
        rw [← hcontra, Prod.mk.eta]
        exact List.getElem_mem hidxlt
      have hle : (n.edges[idx]).1 ≤ (n.edges[idx + k]).1 :=
        labelsSorted_getElem_le hs hidxlt hk' (by omega)
      have hy1 : (n.edges[idx + k]).1 = y.1 := congrArg Prod.fst hget
      omega
    have hpairs : List.Pairwise (fun a b : Nat × Node T => a.1 < b.1)
        (n.edges.take idx ++ e :: n.edges.drop idx) := by
      rw [List.pairwise_append]
      refine ⟨hpw.sublist (List.take_sublist ..), ?_, ?_⟩
      · rw [List.pairwise_cons]
        exact ⟨hdrop, hpw.sublist (List.drop_sublist ..)⟩
      · intro x hx y hy
        rcases List.mem_cons.mp hy with hy | hy
        · rw [hy]; exact htake x hx
        · exact lt_trans (htake x hx) (hdrop y hy)
    rw [addEdge_edges, ← hidx]
    refine ⟨pairwise_labelsSorted hpairs, ?_, ?_⟩
    · exact List.mem_append_right _ (List.mem_cons_self ..)
    · have hperm : List.Perm (n.edges.take idx ++ e :: n.edges.drop idx)
          (e :: (n.edges.take idx ++ n.edges.drop idx)) := List.perm_middle
      rw [List.take_append_drop] at hperm
      exact hperm
  · -- delEdge edges = filter
    obtain ⟨r1, r2, r3⟩ := sortSearch_edges hs lab
    set idx := sortSearch (fun i => decide (lab ≤ labelAt n.edges i)) 0
      n.edges.length with hidx
    simp only [delEdge]
    rw [← hidx]
    split
    · rename_i hcond
      obtain ⟨hlt, hlab⟩ := hcond
      rw [labelAt_eq hlt] at hlab
      have hdecomp : n.edges = n.edges.take idx ++
          n.edges[idx] :: n.edges.drop (idx + 1) := by
        conv_lhs => rw [← List.take_append_drop idx n.edges]
        rw [List.drop_eq_getElem_cons hlt]
      have hfiltake : (n.edges.take idx).filter (fun f => f.1 != lab) =
          n.edges.take idx := by
        rw [List.filter_eq_self]
        intro x hx
        obtain ⟨k, hk, hget⟩ := List.mem_iff_getElem.mp hx
        have hk' : k < idx ∧ k < n.edges.length := by
          simp [List.length_take] at hk
          omega
        rw [List.getElem_take] at hget
        have := r2 k hk'.2 hk'.1
        rw [hget] at this
        simp only [bne_iff_ne, ne_eq, decide_eq_true_eq]
        omega
      have hfildrop : (n.edges.drop (idx + 1)).filter
          (fun f => f.1 != lab) = n.edges.drop (idx + 1) := by
        rw [List.filter_eq_self]
        intro y hy
        obtain ⟨k, hk, hget⟩ := List.mem_iff_getElem.mp hy
        have hk' : idx + 1 + k < n.edges.length := by
          simp [List.length_drop] at hk
          omega
        rw [List.getElem_drop] at hget
        have := labelsSorted_getElem_lt hs hlt hk' (by omega)
        rw [hget] at this
        simp only [bne_iff_ne, ne_eq, decide_eq_true_eq]
        omega
      constructor
      · apply pairwise_labelsSorted
        apply hpw.sublist
        conv_rhs => rw [hdecomp]
        exact List.Sublist.append_left (List.sublist_cons_self ..) _
      · conv_rhs => rw [hdecomp]
        rw [List.filter_append, hfiltake, List.filter_cons]
        rw [if_neg (by simp [hlab])]
        rw [hfildrop]
        rfl
    · rename_i hcond
      rw [not_and] at hcond
      have hall : ∀ k (hk : k < n.edges.length), (n.edges[k]).1 ≠ lab := by
        intro k hk
        by_cases hklt : k < idx
        · have := r2 k hk hklt
          omega
        · have hidxlt : idx < n.edges.length := by omega
          have hge : lab ≤ (n.edges[idx]).1 := r3 hidxlt
          have hne : labelAt n.edges idx ≠ lab := hcond hidxlt
          rw [labelAt_eq hidxlt] at hne
          by_cases hkeq : k = idx
          · subst hkeq
            exact hne
          · have := labelsSorted_getElem_lt hs hidxlt hk (by omega)
            omega
      constructor
      · exact hs
      · rw [List.filter_eq_self.mpr]
        intro x hx
        obtain ⟨k, hk, hget⟩ := List.mem_iff_getElem.mp hx
        have := hall k hk
        rw [hget] at this
        simp only [bne_iff_ne, ne_eq, decide_eq_true_eq]
        exact this
  · -- delEdge no-op when absent
    intro hnot
    obtain ⟨r1, r2, r3⟩ := sortSearch_edges hs lab
    set idx := sortSearch (fun i => decide (lab ≤ labelAt n.edges i)) 0
      n.edges.length with hidx
    simp only [delEdge]
    rw [← hidx]
    rw [if_neg]
    intro hcond
    obtain ⟨hlt, hlab⟩ := hcond
    rw [labelAt_eq hlt] at hlab
    apply hnot (n.edges[idx]).2
    rw [← hlab, Prod.mk.eta]
    exact List.getElem_mem hlt


/-- Example node with two sorted edges (labels 97 and 99), used by the
edge-manipulation witnesses. -/
def exEdgesNode : Node Nat := .mk none [] [(97, exChild1), (99, exChild2)]

/-- Witness for C8 at the concrete two-edge node. -/
theorem C8_witness :
    labelsSorted exEdgesNode.edges = true ∧
    (((∀ c, (98, c) ∉ exEdgesNode.edges) →
      labelsSorted (addEdge exEdgesNode (98, exChild2)).edges = true ∧
      (98, exChild2) ∈ (addEdge exEdgesNode (98, exChild2)).edges ∧
      (addEdge exEdgesNode (98, exChild2)).edges.Perm
        ((98, exChild2) :: exEdgesNode.edges)) ∧
    (labelsSorted (delEdge exEdgesNode 99).edges = true ∧
      (delEdge exEdgesNode 99).edges =
        exEdgesNode.edges.filter (fun f => f.1 != 99)) ∧
    ((∀ c, (99, c) ∉ exEdgesNode.edges) → delEdge exEdgesNode 99 = exEdgesNode)) :=
  ⟨by simp [exEdgesNode, Node.edges, labelsSorted],
   C8_addEdge_delEdge exEdgesNode (98, exChild2) 99
     (by simp [exEdgesNode, Node.edges, labelsSorted])⟩

theorem set_getElem_self {α : Type} (l : List α) (i : Nat)
    (h : i < l.length) : l.set i l[i] = l := by
  apply List.ext_getElem
  · simp
  · intro n h1 h2
    simp only [List.getElem_set]
    split
    · rename_i he
      subst he
      rfl
    · rfl

/-- C9: with sorted distinct labels, `replaceEdge(e)` panics (modelled
`none`) exactly when no edge carries `e`'s label; on success it replaces
only the matching edge's child, keeping the leaf, the prefix, every
label, and every other edge unchanged. -/
theorem C9_replaceEdge {T : Type} (n : Node T) (e : Nat × Node T)
    (hs : labelsSorted n.edges = true) :
    (replaceEdge n e = none ↔ ∀ c, (e.1, c) ∉ n.edges) ∧
    (∀ n', replaceEdge n e = some n' →
      n'.leaf = n.leaf ∧ n'.pfx = n.pfx ∧
      n'.edges.map Prod.fst = n.edges.map Prod.fst ∧
      ∃ i, ∃ hi : i < n.edges.length, (n.edges[i]).1 = e.1 ∧
        n'.edges = n.edges.set i ((n.edges[i]).1, e.2)) := by
  obtain ⟨r1, r2, r3⟩ := sortSearch_edges hs e.1
  set idx := sortSearch (fun i => decide (e.1 ≤ labelAt n.edges i)) 0
    n.edges.length with hidx
  constructor
  · constructor
    · intro hnone c hmem
      simp only [replaceEdge] at hnone
      rw [← hidx] at hnone
      obtain ⟨i, hi, hget⟩ := List.getElem_of_mem hmem
      have hile : idx ≤ i := by
        by_contra hc
        have := r2 i hi (by omega)
        rw [hget] at this
        omega
      have hlt : idx < n.edges.length := by omega
      have heq : idx = i := by
        by_contra hc
        have hlt2 : idx < i := by omega
        have h4 := labelsSorted_getElem_lt hs hlt hi hlt2
        have h3 : e.1 ≤ (n.edges[idx]).1 := r3 hlt
        rw [hget] at h4
        omega
      have hglab : labelAt n.edges idx = e.1 := by
        rw [labelAt_eq hlt]
        have h5 : n.edges[idx] = (e.1, c) := by
          simp only [heq]
          exact hget
        rw [h5]
      rw [if_pos ⟨hlt, hglab⟩] at hnone
      cases hnone
    · intro hnot
      simp only [replaceEdge]
      rw [← hidx]
      rw [if_neg]
      intro hcond
      obtain ⟨hlt, hlab⟩ := hcond
      rw [labelAt_eq hlt] at hlab
      apply hnot (n.edges[idx]).2
      rw [← hlab, Prod.mk.eta]
      exact List.getElem_mem hlt
  · intro n' hsome
    simp only [replaceEdge] at hsome
    rw [← hidx] at hsome
    split at hsome
    · rename_i hcond
      obtain ⟨hlt, hlab⟩ := hcond
      have hn' := Option.some_inj.mp hsome
      rw [← hn']
      refine ⟨rfl, rfl, ?_, idx, hlt, ?_, ?_⟩
      · show (n.edges.set idx (labelAt n.edges idx, e.2)).map Prod.fst =
            n.edges.map Prod.fst
        rw [labelAt_eq hlt, List.map_set]
        have hmlt : idx < (n.edges.map Prod.fst).length := by simp [hlt]
        have hmapget : (n.edges[idx]).1 =
            (n.edges.map Prod.fst)[idx] := by simp
        rw [hmapget, set_getElem_self]
      · rw [← labelAt_eq hlt]
        exact hlab
      · show n.edges.set idx (labelAt n.edges idx, e.2) =
            n.edges.set idx ((n.edges[idx]).1, e.2)
        rw [labelAt_eq hlt]
    · cases hsome


/-- Witness for C9 at the concrete two-edge node. -/
theorem C9_witness :
    labelsSorted exEdgesNode.edges = true ∧
    ((replaceEdge exEdgesNode (97, exChild2) = none ↔
      ∀ c, (97, c) ∉ exEdgesNode.edges) ∧
    (∀ n', replaceEdge exEdgesNode (97, exChild2) = some n' →
      n'.leaf = exEdgesNode.leaf ∧ n'.pfx = exEdgesNode.pfx ∧
      n'.edges.map Prod.fst = exEdgesNode.edges.map Prod.fst ∧
      ∃ i, ∃ hi : i < exEdgesNode.edges.length,
        (exEdgesNode.edges[i]).1 = 97 ∧
        n'.edges = exEdgesNode.edges.set i
          ((exEdgesNode.edges[i]).1, exChild2))) :=
  ⟨by simp [exEdgesNode, Node.edges, labelsSorted],
   C9_replaceEdge exEdgesNode (97, exChild2)
     (by simp [exEdgesNode, Node.edges, labelsSorted])⟩

/-- Leaf record with the source's bookkeeping fields: the watch channel
(`mutateCh`, modelled as an optional channel identifier) and the
reference count. -/
structure LeafW (T : Type) where
  mutateCh : Option Nat
  key : Key
  val : T
  refCount : Int
deriving DecidableEq, Repr

/-- Node with the source's bookkeeping fields, for the clone claim:
reference counts, watch channel id, leaf, prefix, and labelled edges. -/
inductive NodeW (T : Type) : Type where
  | mk (refCount lazyRefCount : Int) (mutateCh : Option Nat)
    (leaf : Option (LeafW T)) (pfx : Key)
    (edges : List (Nat × NodeW T)) : NodeW T

/-- The node's reference count. -/
def NodeW.refCount {T : Type} : NodeW T → Int
  | .mk rc _ _ _ _ _ => rc

/-- The node's lazy reference count. -/
def NodeW.lazyRefCount {T : Type} : NodeW T → Int
  | .mk _ lrc _ _ _ _ => lrc

/-- The node's watch channel id, `none` when not yet allocated. -/
def NodeW.mutateCh {T : Type} : NodeW T → Option Nat
  | .mk _ _ mc _ _ _ => mc

/-- The node's leaf. -/
def NodeW.leaf {T : Type} : NodeW T → Option (LeafW T)
  | .mk _ _ _ lf _ _ => lf

/-- The node's prefix. -/
def NodeW.pfx {T : Type} : NodeW T → Key
  | .mk _ _ _ _ pf _ => pf

/-- The node's edge list. -/
def NodeW.edges {T : Type} : NodeW T → List (Nat × NodeW T)
  | .mk _ _ _ _ _ es => es

/-- `ed.node.lazyRefCount += delta` on a child (the only mutation
`processLazyRefCount` applies to children). -/
def bumpLazy {T : Type} (delta : Int) : NodeW T → NodeW T
  | .mk rc lrc mc lf pf es => .mk rc (lrc + delta) mc lf pf es

/-- Embedding of `Node.processLazyRefCount`. -/
def processLazyRefCount {T : Type} : NodeW T → NodeW T
  | .mk rc lrc mc lf pf es =>
    if lrc = 0 then .mk rc lrc mc lf pf es
    else .mk (rc + lrc) 0 mc
      (lf.map (fun l => { l with refCount := l.refCount + lrc })) pf
      (es.map (fun e => (e.1, bumpLazy lrc e.2)))

/-- Embedding of `Node.getMutateCh`: return the existing channel, or
atomically install the freshly made one (`fresh`) and return it.  The
original node is returned alongside because the CAS mutates it. -/
def getMutateChW {T : Type} (fresh : Nat) : NodeW T → Nat × NodeW T
  | .mk rc lrc mc lf pf es =>
    match mc with
    | some ch => (ch, .mk rc lrc (some ch) lf pf es)
    | none => (fresh, .mk rc lrc (some fresh) lf pf es)

/-- Embedding of `Node.clone` with `deep = false` (the shallow clone of
the copy-on-write path).  `fresh` is the channel id a `getMutateCh` call
would allocate when the node has none.  Returns the updated original
(lazy refcounts pushed down, channel possibly allocated by the
`getMutateCh` calls) together with the clone.  Note the source's
`if n.getMutateCh() != nil` is always true — `getMutateCh` allocates on
demand — so the clone always adopts the channel `n.getMutateCh()`
returned, and `nn.prefix` is a fresh byte-copy (value-equal), `nn.leaf`
the shared leaf pointer, `nn.edges` a copy sharing the child pointers. -/
def cloneShallow {T : Type} (fresh : Nat) (n : NodeW T) :
    NodeW T × NodeW T :=
  let n1 := processLazyRefCount n
  let chn := getMutateChW fresh n1
  (chn.2, .mk chn.2.refCount 0 (some chn.1) chn.2.leaf chn.2.pfx chn.2.edges)

/-- Concrete node for the C10 counterexample: watch channel already
allocated as id 7. -/
def exW : NodeW Nat := .mk 1 0 (some 7) (some ⟨some 3, [97], 0, 1⟩) [97] []

/-- C10 counterexample: cloning `exW` (whose watch signal is channel 7)
yields a clone whose watch signal is the *same* channel 7 — the clone
shares the original's watch signal instead of carrying a freshly
allocated one distinct from it, contradicting the claim. -/
theorem C10_counterexample :
    (cloneShallow 99 exW).2.mutateCh = (cloneShallow 99 exW).1.mutateCh ∧
    (cloneShallow 99 exW).2.mutateCh = some 7 ∧
    exW.mutateCh = some 7 := by
  refine ⟨rfl, rfl, rfl⟩

/-- C10 amended: the shallow clone copies the prefix (value-equal),
shares the leaf pointer and the edge list (labels and child pointers) of
the processed original, and carries the *same* watch signal as the
original — the channel `getMutateCh` returns on the original, freshly
allocated into both only when the original had none — rather than a
distinct fresh one. -/
theorem C10_clone_shallow {T : Type} (fresh : Nat) (n : NodeW T) :
    (cloneShallow fresh n).2.pfx = n.pfx ∧
    (cloneShallow fresh n).2.leaf = (cloneShallow fresh n).1.leaf ∧
    (cloneShallow fresh n).2.edges = (cloneShallow fresh n).1.edges ∧
    (cloneShallow fresh n).2.refCount = (cloneShallow fresh n).1.refCount ∧
    (cloneShallow fresh n).2.mutateCh = (cloneShallow fresh n).1.mutateCh ∧
    (cloneShallow fresh n).2.mutateCh =
      some (getMutateChW fresh (processLazyRefCount n)).1 := by
  cases n with
  | mk rc lrc mc lf pf es =>
    simp only [cloneShallow, processLazyRefCount]
    by_cases hlrc : lrc = 0
    · rw [if_pos hlrc]
      cases mc with
      | none =>
        simp [getMutateChW, NodeW.pfx, NodeW.leaf, NodeW.edges,
          NodeW.refCount, NodeW.mutateCh]
      | some ch =>
        simp [getMutateChW, NodeW.pfx, NodeW.leaf, NodeW.edges,
          NodeW.refCount, NodeW.mutateCh]
    · rw [if_neg hlrc]
      cases mc with
      | none =>
        simp [getMutateChW, NodeW.pfx, NodeW.leaf, NodeW.edges,
          NodeW.refCount, NodeW.mutateCh]
      | some ch =>
        simp [getMutateChW, NodeW.pfx, NodeW.leaf, NodeW.edges,
          NodeW.refCount, NodeW.mutateCh]


/-- Walk of a plain slice of nodes, in order (the contribution of one
stack slice to the rest of a forward iteration). -/
def walkListN {T : Type} : List (Node T) → List (Key × T)
  | [] => []
  | n :: ns => walkList n ++ walkListN ns

theorem walkListN_cons {T : Type} (n : Node T) (ns : List (Node T)) :
    walkListN (n :: ns) = walkList n ++ walkListN ns := by
  rw [walkListN]

theorem walkListN_map_snd {T : Type} (es : List (Nat × Node T)) :
    walkListN (es.map Prod.snd) = walkListE es := by
  induction es with
  | nil => rfl
  | cons e es ih =>
    rw [List.map_cons, walkListN_cons, walkListE_cons, ih]

/-- What the rest of a forward iteration yields from a stack: the slices'
walks, top slice first. -/
def stackWalk {T : Type} (st : List (List (Node T))) : List (Key × T) :=
  (st.map walkListN).flatten

theorem stackWalk_nil {T : Type} : stackWalk ([] : List (List (Node T))) = [] := rfl

theorem stackWalk_cons {T : Type} (s : List (Node T))
    (st : List (List (Node T))) :
    stackWalk (s :: st) = walkListN s ++ stackWalk st := by
  rw [stackWalk, List.map_cons, List.flatten_cons]
  rfl


mutual
/-- Number of nodes of a subtree: the termination measure for the
iterator drains. -/
def nodeSize {T : Type} : Node T → Nat
  | .mk _ _ es => 1 + nodeSizeE es
/-- `nodeSize` summed over an edge list. -/
def nodeSizeE {T : Type} : List (Nat × Node T) → Nat
  | [] => 0
  | e :: es => nodeSize e.2 + nodeSizeE es
end

theorem nodeSize_pos {T : Type} (n : Node T) : 1 ≤ nodeSize n := by
  cases n with
  | mk lf pf es =>
    rw [nodeSize]
    omega

/-- Weight of one stack slice. -/
def sliceWeight {T : Type} (s : List (Node T)) : Nat :=
  (s.map nodeSize).sum

/-- Total node count on the stack; the drain measure. -/
def stackWeight {T : Type} (st : List (List (Node T))) : Nat :=
  (st.map sliceWeight).sum

theorem children_weight_lt {T : Type} (n : Node T) :
    sliceWeight (children n) < nodeSize n := by
  cases n with
  | mk lf pf es =>
    rw [nodeSize]
    have h : sliceWeight (es.map Prod.snd) = nodeSizeE es := by
      induction es with
      | nil => rfl
      | cons e es ih =>
        rw [List.map_cons]
        simp only [sliceWeight, List.map_cons, List.sum_cons] at *
        rw [nodeSizeE, ← ih]
    simp only [children, Node.edges]
    omega


/-- Push a slice on the stack unless it is empty — the guard every push
site in the source applies (`if len(...) > 0/1`, `if idx+1 < len`). -/
def pushStack {T : Type} (s : List (Node T)) (st : List (List (Node T))) :
    List (List (Node T)) :=
  match s with
  | [] => st
  | a :: s' => (a :: s') :: st

theorem stackWalk_pushStack {T : Type} (s : List (Node T))
    (st : List (List (Node T))) :
    stackWalk (pushStack s st) = walkListN s ++ stackWalk st := by
  cases s with
  | nil => rw [pushStack, walkListN]; rfl
  | cons a s' => rw [pushStack, stackWalk_cons]

theorem stackWeight_pushStack {T : Type} (s : List (Node T))
    (st : List (List (Node T))) :
    stackWeight (pushStack s st) = sliceWeight s + stackWeight st := by
  cases s with
  | nil =>
    rw [pushStack]
    simp [sliceWeight]
  | cons a s' =>
    rw [pushStack]
    simp [stackWeight]

theorem length_pushStack {T : Type} (s : List (Node T))
    (st : List (List (Node T))) :
    (pushStack s st).length ≤ st.length + 1 := by
  cases s with
  | nil => rw [pushStack]; omega
  | cons a s' => rw [pushStack]; simp

/-- Full drain of `Iterator.Next` from a stack: pop the first node of the
top slice (replacing the top with its tail, or dropping it when
exhausted), push the node's children as the new top slice when non-empty,
emit the node's leaf, repeat until the stack is empty.  The source never
pushes an empty slice; the `[] :: rest` case is unreachable there and
merely keeps the function total. -/
def drain {T : Type} : List (List (Node T)) → List (Key × T)
  | [] => []
  | [] :: rest => drain rest
  | (e :: tl) :: rest =>
    leafPairs e.leaf ++ drain (pushStack (children e) (pushStack tl rest))
termination_by st => 3 * stackWeight st + st.length
decreasing_by
  · simp only [stackWeight, List.map_cons, List.sum_cons, List.length_cons,
      sliceWeight, List.map_nil, List.sum_nil]
    omega
  · have hcw := children_weight_lt e
    have h1 := stackWeight_pushStack (children e) (pushStack tl rest)
    have h2 := stackWeight_pushStack tl rest
    have h3 := length_pushStack (children e) (pushStack tl rest)
    have h4 := length_pushStack tl rest
    simp only [stackWeight, List.map_cons, List.sum_cons, List.length_cons,
      sliceWeight, List.map_nil, List.sum_nil] at *
    omega

/-- The drain of a stack is the concatenation of the slices' walks. -/
theorem drain_eq {T : Type} (st : List (List (Node T))) :
    drain st = stackWalk st := by
  induction st using drain.induct with
  | case1 => rw [drain]; rfl
  | case2 rest ih =>
    rw [drain, ih, stackWalk_cons, walkListN]
    rfl
  | case3 e tl rest ih =>
    rw [drain, ih]
    rw [stackWalk_cons, walkListN_cons]
    rw [stackWalk_pushStack, stackWalk_pushStack]
    have hwalk : walkList e = leafPairs e.leaf ++ walkListN (children e) := by
      cases e with
      | mk lf pf es =>
        rw [walkList_mk]
        show leafPairs lf ++ walkListE es =
          leafPairs lf ++ walkListN (es.map Prod.snd)
        rw [walkListN_map_snd]
    rw [hwalk]
    simp [List.append_assoc]


/-- The `prefixCmp` computation of the lower-bound seeks:
`bytes.Compare(n.prefix, search[:len(n.prefix)])` when the prefix is
shorter than the search, else `bytes.Compare(n.prefix, search)`. -/
def prefixCmpO (pfx search : Key) : Ordering :=
  if pfx.length < search.length then
    bytesCompare pfx (search.take pfx.length)
  else bytesCompare pfx search

theorem prefixCmpO_nil_left (s : Key) : prefixCmpO [] s = .eq := by
  unfold prefixCmpO
  cases s with
  | nil => rfl
  | cons b bs => rw [if_pos (by simp)]; rfl

theorem prefixCmpO_cons_nil (a : Nat) (as : Key) :
    prefixCmpO (a :: as) [] = .gt := by
  unfold prefixCmpO
  rw [if_neg (by simp)]
  rfl

theorem prefixCmpO_cons_cons (a b : Nat) (as bs : Key) :
    prefixCmpO (a :: as) (b :: bs) =
      (if a < b then .lt else if b < a then .gt else prefixCmpO as bs) := by
  unfold prefixCmpO
  by_cases h : as.length < bs.length
  · rw [if_pos (by simp only [List.length_cons]; omega)]
    rw [if_pos h]
    simp only [List.length_cons, List.take_succ_cons]
    rw [bytesCompare]
  · rw [if_neg (by simp only [List.length_cons]; omega)]
    rw [if_neg h]
    rw [bytesCompare]

theorem prefixCmpO_gt {pfx s : Key} (h : prefixCmpO pfx s = .gt) (w : Key) :
    bytesCompare s (pfx ++ w) = .lt := by
  induction pfx generalizing s with
  | nil => rw [prefixCmpO_nil_left] at h; cases h
  | cons a as ih =>
    cases s with
    | nil => rfl
    | cons b bs =>
      rw [prefixCmpO_cons_cons] at h
      rw [List.cons_append, bytesCompare]
      by_cases hab : a < b
      · rw [if_pos hab] at h; cases h
      · by_cases hba : b < a
        · rw [if_pos hba]
        · rw [if_neg hab, if_neg hba] at h
          rw [if_neg (by omega), if_neg (by omega)]
          exact ih h

theorem prefixCmpO_lt {pfx s : Key} (h : prefixCmpO pfx s = .lt) (w : Key) :
    bytesCompare (pfx ++ w) s = .lt := by
  induction pfx generalizing s with
  | nil => rw [prefixCmpO_nil_left] at h; cases h
  | cons a as ih =>
    cases s with
    | nil => rw [prefixCmpO_cons_nil] at h; cases h
    | cons b bs =>
      rw [prefixCmpO_cons_cons] at h
      rw [List.cons_append, bytesCompare]
      by_cases hab : a < b
      · rw [if_pos hab]
      · by_cases hba : b < a
        · rw [if_pos hba] at h; rw [if_neg hab] at h; cases h
        · rw [if_neg hab, if_neg hba] at h
          rw [if_neg hab, if_neg hba]
          exact ih h

theorem prefixCmpO_eq {pfx s : Key} (h : prefixCmpO pfx s = .eq) :
    s = pfx ++ s.drop pfx.length := by
  induction pfx generalizing s with
  | nil => simp
  | cons a as ih =>
    cases s with
    | nil => rw [prefixCmpO_cons_nil] at h; cases h
    | cons b bs =>
      rw [prefixCmpO_cons_cons] at h
      by_cases hab : a < b
      · rw [if_pos hab] at h; cases h
      · by_cases hba : b < a
        · rw [if_neg hab, if_pos hba] at h; cases h
        · rw [if_neg hab, if_neg hba] at h
          have hav : a = b := by omega
          rw [List.cons_append, List.length_cons, List.drop_succ_cons]
          rw [hav, ← ih h]

/-- The exact-leaf test `n.leaf != nil && bytes.Equal(n.leaf.key, key)`. -/
def leafEqKey {T : Type} (n : Node T) (key : Key) : Bool :=
  match n.leaf with
  | some l => l.key == key
  | none => false

/-- Embedding of `Iterator.recurseMin`: descend along first edges,
pushing the remaining siblings, until a leaf-bearing node is found. -/
def recurseMin {T : Type} : List (List (Node T)) → Node T →
    List (List (Node T)) × Option (Node T)
  | stack, n =>
    if n.leaf.isSome then (stack, some n)
    else match h : n.edges with
      | [] => (stack, none)
      | (l, c) :: cs =>
        recurseMin (pushStack (cs.map Prod.snd) stack) c
termination_by _ n => sizeOf n
decreasing_by
  exact sizeOf_lt_of_mem_edges (h ▸ List.mem_cons_self ..)

/-- The `findMin` closure of `SeekLowerBound`: `recurseMin`, then push
the found minimum node as a singleton slice. -/
def findMin {T : Type} (n : Node T) (stack : List (List (Node T))) :
    List (List (Node T)) :=
  match recurseMin stack n with
  | (st, some mn) => [mn] :: st
  | (st, none) => st

/-- Embedding of `Iterator.SeekLowerBound`'s loop, accumulating the
stack; `key` is the sought key, `search` its yet-unmatched tail. -/
def seekLB {T : Type} (n : Node T) (key search : Key)
    (stack : List (List (Node T))) : List (List (Node T)) :=
  match prefixCmpO n.pfx search with
  | .gt => findMin n stack
  | .lt => stack
  | .eq =>
    if leafEqKey n key then [n] :: stack
    else
      match search.drop n.pfx.length with
      | [] => findMin n stack
      | b :: rest' =>
        match h : getLowerBoundEdge n b with
        | none => stack
        | some (idx, lb) =>
          seekLB lb key (b :: rest')
            (pushStack ((children n).drop (idx + 1)) stack)
termination_by sizeOf n
decreasing_by
  obtain ⟨l, hmem⟩ := getLowerBoundEdge_mem h
  exact sizeOf_lt_of_mem_edges hmem

/-- `SeekLowerBound(key)` followed by draining `Next`: the seek wipes the
stack and clears `node`, so the subsequent iteration is exactly the drain
of the seek's stack. -/
def seekLowerBoundDrain {T : Type} (n : Node T) (key : Key) :
    List (Key × T) :=
  drain (seekLB n key key [])


theorem recurseMin_leaf {T : Type} {n : Node T}
    (h : n.leaf.isSome = true) (stack : List (List (Node T))) :
    recurseMin stack n = (stack, some n) := by
  rw [recurseMin, if_pos h]

theorem recurseMin_nil {T : Type} {n : Node T}
    (h1 : n.leaf.isSome = false) (h2 : n.edges = [])
    (stack : List (List (Node T))) :
    recurseMin stack n = (stack, none) := by
  rw [recurseMin, if_neg (by rw [h1]; simp)]
  split
  · rfl
  · rename_i l c cs heq
    rw [h2] at heq
    cases heq

theorem recurseMin_cons {T : Type} {n : Node T} {l : Nat} {c : Node T}
    {cs : List (Nat × Node T)} (h1 : n.leaf.isSome = false)
    (h2 : n.edges = (l, c) :: cs) (stack : List (List (Node T))) :
    recurseMin stack n =
      recurseMin (pushStack (cs.map Prod.snd) stack) c := by
  rw [recurseMin, if_neg (by rw [h1]; simp)]
  split
  · rename_i heq
    rw [h2] at heq
    cases heq
  · rename_i l' c' cs' heq
    rw [h2] at heq
    obtain ⟨he, hcs⟩ := List.cons.injEq .. ▸ heq
    obtain ⟨hl, hc⟩ := Prod.mk.injEq .. ▸ he
    rw [← hc, ← hcs]

theorem findMin_stackWalk {T : Type} (n : Node T) :
    ∀ stack, stackWalk (findMin n stack) = walkList n ++ stackWalk stack := by
  induction n using node_strong_ind with
  | ind n IH =>
    intro stack
    cases n with
    | mk lf pf es =>
      cases lf with
      | some l =>
        rw [findMin, recurseMin_leaf (by simp [Node.leaf])]
        rw [stackWalk_cons, walkListN_cons, walkListN]
        simp
      | none =>
        cases es with
        | nil =>
          rw [findMin, recurseMin_nil (by simp [Node.leaf])
            (show Node.edges (Node.mk none pf []) = [] from rfl)]
          rw [walkList_mk, walkListE]
          rfl
        | cons e cs =>
          obtain ⟨l, c⟩ := e
          rw [findMin, recurseMin_cons (by simp [Node.leaf])
            (show Node.edges (Node.mk none pf ((l, c) :: cs)) = (l, c) :: cs
              from rfl)]
          rw [show (match recurseMin (pushStack (cs.map Prod.snd) stack) c
              with
            | (st, some mn) => [mn] :: st
            | (st, none) => st) =
            findMin c (pushStack (cs.map Prod.snd) stack) from rfl]
          rw [IH c (sizeOf_child_lt (List.mem_cons_self ..))]
          rw [stackWalk_pushStack, walkListN_map_snd]
          rw [walkList_mk, walkListE_cons]
          simp [leafPairs]


theorem seekLB_gt {T : Type} {n : Node T} {key search : Key}
    (h : prefixCmpO n.pfx search = .gt) (stack : List (List (Node T))) :
    seekLB n key search stack = findMin n stack := by
  rw [seekLB, h]

theorem seekLB_lt {T : Type} {n : Node T} {key search : Key}
    (h : prefixCmpO n.pfx search = .lt) (stack : List (List (Node T))) :
    seekLB n key search stack = stack := by
  rw [seekLB, h]

theorem seekLB_eq_exact {T : Type} {n : Node T} {key search : Key}
    (h : prefixCmpO n.pfx search = .eq) (hleaf : leafEqKey n key = true)
    (stack : List (List (Node T))) :
    seekLB n key search stack = [n] :: stack := by
  rw [seekLB, h]
  simp only [hleaf, if_pos]

theorem seekLB_eq_exhausted {T : Type} {n : Node T} {key search : Key}
    (h : prefixCmpO n.pfx search = .eq) (hleaf : leafEqKey n key = false)
    (hdrop : search.drop n.pfx.length = [])
    (stack : List (List (Node T))) :
    seekLB n key search stack = findMin n stack := by
  rw [seekLB, h]
  rw [if_neg (by rw [hleaf]; simp)]
  rw [hdrop]

theorem seekLB_eq_lb_none {T : Type} {n : Node T} {key search : Key}
    {b : Nat} {rest' : Key}
    (h : prefixCmpO n.pfx search = .eq) (hleaf : leafEqKey n key = false)
    (hdrop : search.drop n.pfx.length = b :: rest')
    (hlb : getLowerBoundEdge n b = none)
    (stack : List (List (Node T))) :
    seekLB n key search stack = stack := by
  rw [seekLB, h]
  rw [if_neg (by rw [hleaf]; simp)]
  rw [hdrop]
  split
  · rename_i heq
    cases heq
  · rename_i heq
    cases heq
  · split
    · rename_i heq
      cases heq
    · rename_i x b2 rest2 heq
      obtain ⟨hb, hr⟩ := List.cons.injEq .. ▸ heq
      subst hb
      subst hr
      split
      · rfl
      · rename_i idx2 lb2 heq2
        rw [hlb] at heq2
        cases heq2

theorem seekLB_eq_lb_some {T : Type} {n : Node T} {key search : Key}
    {b : Nat} {rest' : Key} {idx : Nat} {lb : Node T}
    (h : prefixCmpO n.pfx search = .eq) (hleaf : leafEqKey n key = false)
    (hdrop : search.drop n.pfx.length = b :: rest')
    (hlb : getLowerBoundEdge n b = some (idx, lb))
    (stack : List (List (Node T))) :
    seekLB n key search stack =
      seekLB lb key (b :: rest')
        (pushStack ((children n).drop (idx + 1)) stack) := by
  rw [seekLB, h]
  rw [if_neg (by rw [hleaf]; simp)]
  rw [hdrop]
  split
  · rename_i heq
    cases heq
  · rename_i heq
    cases heq
  · split
    · rename_i heq
      cases heq
    · rename_i x b2 rest2 heq
      obtain ⟨hb, hr⟩ := List.cons.injEq .. ▸ heq
      subst hb
      subst hr
      split
      · rename_i heq2
        rw [hlb] at heq2
        cases heq2
      · rename_i idx2 lb2 heq2
        rw [hlb] at heq2
        obtain ⟨h1, h2⟩ := Prod.mk.injEq .. ▸ Option.some_inj.mp heq2
        rw [← h1, ← h2]

theorem filter_keyLe_all {T : Type} {key : Key} {L : List (Key × T)}
    (h : ∀ kv ∈ L, bytesCompare key kv.1 ≠ .gt) :
    L.filter (fun kv => keyLe key kv.1) = L := by
  rw [List.filter_eq_self]
  intro kv hkv
  exact keyLe_iff.mpr (h kv hkv)

theorem filter_keyLe_none {T : Type} {key : Key} {L : List (Key × T)}
    (h : ∀ kv ∈ L, bytesCompare kv.1 key = .lt) :
    L.filter (fun kv => keyLe key kv.1) = [] := by
  rw [List.filter_eq_nil_iff]
  intro kv hkv
  rw [Bool.not_eq_true, keyLe_false_of_gt (bytesCompare_gt_of_lt (h kv hkv))]


theorem bytesCompare_self_append_ne_gt (a w : Key) :
    bytesCompare a (a ++ w) ≠ .gt := by
  cases w with
  | nil => rw [List.append_nil, bytesCompare_self]; simp
  | cons b bs => rw [bytesCompare_self_append a (by simp)]; simp

/-- Loop invariant of `SeekLowerBound`: at a node reached with
accumulated path `p` above it and unmatched `search` (the full key being
`p ++ search`), the seek leaves on the stack exactly the subtree's
entries with keys `≥ key`, on top of the incoming stack. -/
theorem seekLB_stackWalk {T : Type} (n : Node T) :
    ∀ (p search key : Key) (stack : List (List (Node T))),
    validSub p n = true → key = p ++ search →
    stackWalk (seekLB n key search stack) =
      (walkList n).filter (fun kv => keyLe key kv.1) ++ stackWalk stack := by
  induction n using node_strong_ind with
  | ind n IH =>
    intro p search key stack hv hkey
    cases hpc : prefixCmpO n.pfx search with
    | gt =>
      rw [seekLB_gt hpc, findMin_stackWalk]
      have hall : ∀ kv ∈ walkList n, bytesCompare key kv.1 ≠ .gt := by
        intro kv hkv
        obtain ⟨w, hw⟩ := walk_key_shape n p hv kv hkv
        rw [hkey, hw, List.append_assoc, bytesCompare_append_left]
        rw [prefixCmpO_gt hpc w]
        simp
      rw [filter_keyLe_all hall]
    | lt =>
      rw [seekLB_lt hpc]
      have hall : ∀ kv ∈ walkList n, bytesCompare kv.1 key = .lt := by
        intro kv hkv
        obtain ⟨w, hw⟩ := walk_key_shape n p hv kv hkv
        rw [hkey, hw, List.append_assoc, bytesCompare_append_left]
        exact prefixCmpO_lt hpc w
      rw [filter_keyLe_none hall, List.nil_append]
    | eq =>
      have hsearch := prefixCmpO_eq hpc
      cases n with
      | mk lf pf es =>
        have hv' := hv
        rw [validSub_mk] at hv'
        obtain ⟨hl, hs, hc⟩ := hv'
        have hpfx : (Node.mk lf pf es).pfx = pf := rfl
        have hsearchP : search = pf ++ search.drop pf.length := hsearch
        by_cases hleq : leafEqKey (Node.mk lf pf es) key = true
        · rw [seekLB_eq_exact hpc hleq]
          have hkeypf : key = p ++ pf := by
            unfold leafEqKey at hleq
            cases hlf : lf with
            | none =>
              rw [show (Node.mk lf pf es).leaf = lf from rfl, hlf] at hleq
              cases hleq
            | some l =>
              rw [show (Node.mk lf pf es).leaf = lf from rfl, hlf] at hleq
              rw [beq_iff_eq] at hleq
              rw [← hleq]
              exact hl l (by rw [hlf])
          have hall : ∀ kv ∈ walkList (Node.mk lf pf es),
              bytesCompare key kv.1 ≠ .gt := by
            intro kv hkv
            obtain ⟨w, hw⟩ := walk_key_shape _ p hv kv hkv
            rw [hpfx] at hw
            rw [hkeypf, hw]
            exact bytesCompare_self_append_ne_gt (p ++ pf) w
          rw [stackWalk_cons, walkListN_cons, walkListN,
            filter_keyLe_all hall]
          simp
        · rw [Bool.not_eq_true] at hleq
          cases hdr : search.drop pf.length with
          | nil =>
            rw [seekLB_eq_exhausted hpc hleq hdr]
            rw [findMin_stackWalk]
            have hkeypf : key = p ++ pf := by
              rw [hkey, hsearchP, hdr, List.append_nil]
            have hall : ∀ kv ∈ walkList (Node.mk lf pf es),
                bytesCompare key kv.1 ≠ .gt := by
              intro kv hkv
              obtain ⟨w, hw⟩ := walk_key_shape _ p hv kv hkv
              rw [hpfx] at hw
              rw [hkeypf, hw]
              exact bytesCompare_self_append_ne_gt (p ++ pf) w
            rw [filter_keyLe_all hall]
          | cons b rest' =>
            have hkey2 : key = (p ++ pf) ++ (b :: rest') := by
              rw [hkey, hsearchP, hdr, ← List.append_assoc]
            have hleaflt : ∀ kv ∈ leafPairs lf,
                bytesCompare key kv.1 = .gt := by
              intro kv hkv
              have hk1 := leaf_mem_key_eq hl hkv
              rw [hk1, hkey2]
              exact bytesCompare_gt_of_lt
                (bytesCompare_self_append (p ++ pf) (by simp))
            cases hlb : getLowerBoundEdge (Node.mk lf pf es) b with
            | none =>
              rw [seekLB_eq_lb_none hpc hleq hdr hlb]
              have hlabs := getLowerBoundEdge_none
                (show labelsSorted (Node.mk lf pf es).edges = true from hs)
                hlb
              have hlabs' : ∀ k (hk : k < es.length), (es[k]).1 < b :=
                fun k hk => hlabs k hk
              have hall : ∀ kv ∈ walkList (Node.mk lf pf es),
                  bytesCompare kv.1 key = .lt := by
                intro kv hkv
                rw [walkList_mk] at hkv
                rcases List.mem_append.mp hkv with hkv | hkv
                · have h9 := hleaflt kv hkv
                  have hk1 := leaf_mem_key_eq hl hkv
                  rw [hk1, hkey2]
                  exact bytesCompare_self_append (p ++ pf) (by simp)
                · obtain ⟨lab, cn, hm, hkv'⟩ := mem_walkListE hkv
                  obtain ⟨w, hw⟩ := child_key_shape hc hm hkv'
                  obtain ⟨i, hi, hget⟩ := List.getElem_of_mem hm
                  have hlablt : lab < b := by
                    have h8 := hlabs' i hi
                    rw [hget] at h8
                    exact h8
                  rw [hw, hkey2]
                  exact bytesCompare_append_head_lt hlablt _ _
              rw [filter_keyLe_none hall, List.nil_append]
            | some pr =>
              obtain ⟨idx, lb⟩ := pr
              obtain ⟨hlt, hlbeq, hge, hsmall⟩ :=
                getLowerBoundEdge_some
                  (show labelsSorted (Node.mk lf pf es).edges = true from hs)
                  hlb
              have hlt' : idx < es.length := hlt
              have hlbeq' : lb = (es[idx]).2 := hlbeq
              have hge' : b ≤ (es[idx]).1 := hge
              have hsmall' : ∀ k (hk : k < es.length), k < idx →
                  (es[k]).1 < b := fun k hk => hsmall k hk
              have hmem2 : ((es[idx]).1, lb) ∈ es := by
                rw [hlbeq', Prod.mk.eta]
                exact List.getElem_mem hlt'
              have hcv := childrenValid_mem hc hmem2
              rw [seekLB_eq_lb_some hpc hleq hdr hlb]
              rw [IH lb (sizeOf_lt_of_mem_edges hmem2) (p ++ pf)
                (b :: rest') key
                (pushStack ((children (Node.mk lf pf es)).drop (idx + 1))
                  stack) hcv.2.2.2 hkey2]
              rw [stackWalk_pushStack]
              have hdecomp : es = es.take idx ++
                  es[idx] :: es.drop (idx + 1) := by
                conv_lhs => rw [← List.take_append_drop idx es]
                rw [List.drop_eq_getElem_cons hlt']
              have hfiltake : (walkListE (es.take idx)).filter
                  (fun kv => keyLe key kv.1) = [] := by
                apply filter_keyLe_none
                intro kv hkv
                obtain ⟨lab, cn, hm, hkv'⟩ := mem_walkListE hkv
                obtain ⟨w, hw⟩ := child_key_shape hc
                  (List.mem_of_mem_take hm) hkv'
                obtain ⟨i, hi, hget⟩ := List.mem_iff_getElem.mp hm
                have hi' : i < idx ∧ i < es.length := by
                  simp [List.length_take] at hi
                  omega
                rw [List.getElem_take] at hget
                have hlablt : lab < b := by
                  have h8 := hsmall' i hi'.2 hi'.1
                  rw [hget] at h8
                  exact h8
                rw [hw, hkey2]
                exact bytesCompare_append_head_lt hlablt _ _
              have hfildrop : (walkListE (es.drop (idx + 1))).filter
                  (fun kv => keyLe key kv.1) =
                  walkListE (es.drop (idx + 1)) := by
                apply filter_keyLe_all
                intro kv hkv
                obtain ⟨lab, cn, hm, hkv'⟩ := mem_walkListE hkv
                obtain ⟨w, hw⟩ := child_key_shape hc
                  (List.mem_of_mem_drop hm) hkv'
                obtain ⟨i, hi, hget⟩ := List.mem_iff_getElem.mp hm
                have hi' : idx + 1 + i < es.length := by
                  simp [List.length_drop] at hi
                  omega
                rw [List.getElem_drop] at hget
                have hlabgt : b < lab := by
                  have h6 := labelsSorted_getElem_lt hs hlt' hi' (by omega)
                  rw [hget] at h6
                  omega
                rw [hw, hkey2]
                rw [bytesCompare_append_head_lt hlabgt _ _]
                simp
              have hfilleaf : (leafPairs lf).filter
                  (fun kv => keyLe key kv.1) = [] := by
                rw [List.filter_eq_nil_iff]
                intro kv hkv
                rw [Bool.not_eq_true]
                exact keyLe_false_of_gt (hleaflt kv hkv)
              rw [walkList_mk, List.filter_append, hfilleaf,
                List.nil_append]
              conv_rhs => rw [hdecomp]
              rw [walkListE_append, walkListE_cons]
              rw [show (es[idx]).2 = lb from hlbeq'.symm]
              rw [List.filter_append, hfiltake, List.nil_append,
                List.filter_append, hfildrop]
              have hchildren : walkListN
                  ((children (Node.mk lf pf es)).drop (idx + 1)) =
                  walkListE (es.drop (idx + 1)) := by
                rw [show children (Node.mk lf pf es) = es.map Prod.snd
                  from rfl]
                rw [← List.map_drop Prod.snd es (idx + 1)]
                rw [walkListN_map_snd]
              rw [hchildren]
              simp [List.append_assoc]


/-- C2: on a valid tree, `SeekLowerBound(key)` followed by draining
`Next` yields exactly the entries of the pre-order walk whose keys are
`≥ key` (unsigned lexicographic), in strictly ascending order. -/
theorem C2_seek_lower_bound {T : Type} (n : Node T) (key : Key)
    (h : validRoot n = true) :
    seekLowerBoundDrain n key =
      (walkList n).filter (fun kv => keyLe key kv.1) ∧
    List.Pairwise (fun a b : Key × T => keyLt a.1 b.1 = true)
      ((walkList n).filter (fun kv => keyLe key kv.1)) := by
  obtain ⟨h1, h2⟩ := validRoot_parts h
  constructor
  · rw [seekLowerBoundDrain, drain_eq]
    rw [seekLB_stackWalk n [] key key [] h2 (by simp)]
    rw [stackWalk_nil, List.append_nil]
  · exact List.Pairwise.sublist (List.filter_sublist _)
      (walk_sorted_keyLt n [] h2)

/-- Witness for C2 at the concrete example tree and key `"ab"`. -/
theorem C2_witness :
    validRoot exNode = true ∧
    (seekLowerBoundDrain exNode [97, 98] =
      (walkList exNode).filter (fun kv => keyLe [97, 98] kv.1) ∧
    List.Pairwise (fun a b : Key × Nat => keyLt a.1 b.1 = true)
      ((walkList exNode).filter (fun kv => keyLe [97, 98] kv.1))) :=
  ⟨exNode_validRoot, C2_seek_lower_bound exNode [97, 98] exNode_validRoot⟩

/-- A fresh iterator rooted at `n`, drained by repeated `Next` calls:
`Next` seeds the stack with `[[n]]` on first call and then drains it. -/
def iterDrain {T : Type} (n : Node T) : List (Key × T) :=
  drain [[n]]

/-- C4: on a valid tree, draining a fresh forward iterator visits
exactly the leaves of the recursive walk, once each, with keys in
strictly ascending unsigned lexicographic order. -/
theorem C4_iterator_walk {T : Type} (n : Node T) (h : validRoot n = true) :
    iterDrain n = walkList n ∧
    List.Pairwise (fun a b : Key × T => keyLt a.1 b.1 = true)
      (walkList n) := by
  obtain ⟨h1, h2⟩ := validRoot_parts h
  refine ⟨?_, walk_sorted_keyLt n [] h2⟩
  rw [iterDrain, drain_eq, stackWalk_cons, walkListN_cons, walkListN,
    stackWalk_nil]
  simp

/-- Witness for C4 at the concrete example tree. -/
theorem C4_witness :
    validRoot exNode = true ∧
    (iterDrain exNode = walkList exNode ∧
    List.Pairwise (fun a b : Key × Nat => keyLt a.1 b.1 = true)
      (walkList exNode)) :=
  ⟨exNode_validRoot, C4_iterator_walk exNode exNode_validRoot⟩


/-- A slice of `ReverseIterator` stack entries.  Each node carries its
`expandedParents` membership: the source keys that map by node pointer
and every node resident on the stack is distinct, so the flag travels
with the entry.  Slices are held top-first: the source appends to the
end of a slice and pops from the end, the embedding conses to the head
and pops from the head, so a slice the source pushes in ascending order
appears reversed. -/
def revEntry {T : Type} (ns : List (Node T)) : List (Node T × Bool) :=
  (ns.map (fun c => (c, false))).reverse

/-- What the remaining reverse iteration yields from one entry: an
expanded node contributes only its leaf (its children were already
pushed above it), an unexpanded node its whole subtree in reverse
walk order. -/
def rcontrib {T : Type} : Node T × Bool → List (Key × T)
  | (n, true) => leafPairs n.leaf
  | (n, false) => (walkList n).reverse

/-- `rcontrib` summed over a slice, head (= popped-first) first. -/
def rsliceContrib {T : Type} (s : List (Node T × Bool)) : List (Key × T) :=
  (s.map rcontrib).flatten

/-- `rsliceContrib` summed over the stack, top slice first. -/
def rstackContrib {T : Type} (st : List (List (Node T × Bool))) :
    List (Key × T) :=
  (st.map rsliceContrib).flatten

theorem rsliceContrib_nil {T : Type} :
    rsliceContrib ([] : List (Node T × Bool)) = [] := rfl

theorem rsliceContrib_cons {T : Type} (e : Node T × Bool)
    (s : List (Node T × Bool)) :
    rsliceContrib (e :: s) = rcontrib e ++ rsliceContrib s := by
  simp [rsliceContrib]

theorem rsliceContrib_append {T : Type} (a b : List (Node T × Bool)) :
    rsliceContrib (a ++ b) = rsliceContrib a ++ rsliceContrib b := by
  simp [rsliceContrib]

theorem rstackContrib_nil {T : Type} :
    rstackContrib ([] : List (List (Node T × Bool))) = [] := rfl

theorem rstackContrib_cons {T : Type} (s : List (Node T × Bool))
    (st : List (List (Node T × Bool))) :
    rstackContrib (s :: st) = rsliceContrib s ++ rstackContrib st := by
  simp [rstackContrib]

/-- Push a slice of flagged nodes unless it is empty — the guard the
source applies at every push site (`if idx > 0`, `if m > 1`). -/
def pushStackR {T : Type} (s : List (Node T × Bool))
    (st : List (List (Node T × Bool))) : List (List (Node T × Bool)) :=
  match s with
  | [] => st
  | e :: s' => (e :: s') :: st

theorem rstackContrib_pushStackR {T : Type} (s : List (Node T × Bool))
    (st : List (List (Node T × Bool))) :
    rstackContrib (pushStackR s st) = rsliceContrib s ++ rstackContrib st := by
  cases s with
  | nil => rw [pushStackR, rsliceContrib_nil]; rfl
  | cons e s' => rw [pushStackR, rstackContrib_cons]

/-- Weight of one reverse-stack entry for the drain measure: an
unexpanded node still owes its whole subtree, an expanded one only its
own revisit. -/
def rentryWeight {T : Type} : Node T × Bool → Nat
  | (_, true) => 1
  | (n, false) => 2 * nodeSize n

/-- `rentryWeight` summed over a slice. -/
def rsliceWeight {T : Type} (s : List (Node T × Bool)) : Nat :=
  (s.map rentryWeight).sum

/-- `rsliceWeight` summed over the stack; the reverse drain measure. -/
def rstackWeight {T : Type} (st : List (List (Node T × Bool))) : Nat :=
  (st.map rsliceWeight).sum

theorem rsliceWeight_append {T : Type} (a b : List (Node T × Bool)) :
    rsliceWeight (a ++ b) = rsliceWeight a + rsliceWeight b := by
  simp [rsliceWeight]

theorem rsliceWeight_revEntry {T : Type} (ns : List (Node T)) :
    rsliceWeight (revEntry ns) = 2 * sliceWeight ns := by
  induction ns with
  | nil => rfl
  | cons n ns ih =>
    rw [revEntry, List.map_cons, List.reverse_cons, rsliceWeight_append]
    rw [show (ns.map (fun c => ((c : Node T), false))).reverse
      = revEntry ns from rfl]
    rw [ih]
    simp only [rsliceWeight, List.map_cons, List.map_nil, List.sum_cons,
      List.sum_nil, rentryWeight, sliceWeight]
    omega

theorem rstackWeight_pushStackR {T : Type} (s : List (Node T × Bool))
    (st : List (List (Node T × Bool))) :
    rstackWeight (pushStackR s st) = rsliceWeight s + rstackWeight st := by
  cases s with
  | nil =>
    rw [pushStackR]
    simp [rsliceWeight]
  | cons e s' =>
    rw [pushStackR]
    simp [rstackWeight]

theorem length_pushStackR {T : Type} (s : List (Node T × Bool))
    (st : List (List (Node T × Bool))) :
    (pushStackR s st).length ≤ st.length + 1 := by
  cases s with
  | nil => rw [pushStackR]; omega
  | cons e s' => rw [pushStackR]; simp

/-- Full drain of `ReverseIterator.Previous` from a stack: pop the top
entry of the top slice; if it has children and is not yet expanded, push
it back marked expanded with its children above it; otherwise emit its
leaf.  The source never pushes an empty slice; the `[] :: rest` case is
unreachable there and merely keeps the function total. -/
def rdrain {T : Type} : List (List (Node T × Bool)) → List (Key × T)
  | [] => []
  | [] :: rest => rdrain rest
  | ((elem, true) :: top) :: rest =>
    leafPairs elem.leaf ++ rdrain (pushStackR top rest)
  | ((elem, false) :: top) :: rest =>
    match h : elem.edges with
    | [] => leafPairs elem.leaf ++ rdrain (pushStackR top rest)
    | _ :: _ =>
      rdrain (revEntry (children elem) :: [(elem, true)] :: pushStackR top rest)
termination_by st => 3 * rstackWeight st + st.length
decreasing_by
  · simp only [rstackWeight, List.map_cons, List.sum_cons, List.length_cons,
      rsliceWeight, List.map_nil, List.sum_nil]
    omega
  · have h1 := rstackWeight_pushStackR top rest
    have h2 := length_pushStackR top rest
    simp only [rstackWeight, List.map_cons, List.sum_cons, List.length_cons,
      rsliceWeight, List.map_nil, List.sum_nil, rentryWeight] at *
    omega
  · have h1 := rstackWeight_pushStackR top rest
    have h2 := length_pushStackR top rest
    have h3 := nodeSize_pos elem
    simp only [rstackWeight, List.map_cons, List.sum_cons, List.length_cons,
      rsliceWeight, List.map_nil, List.sum_nil, rentryWeight] at *
    omega
  · have h1 := rstackWeight_pushStackR top rest
    have h2 := length_pushStackR top rest
    have h3 := children_weight_lt elem
    have h4 := rsliceWeight_revEntry (children elem)
    simp only [rstackWeight, List.map_cons, List.sum_cons, List.length_cons,
      rsliceWeight, List.map_nil, List.sum_nil, rentryWeight] at *
    omega


theorem leafPairs_reverse {T : Type} (lf : Option (LeafNode T)) :
    (leafPairs lf).reverse = leafPairs lf := by
  cases lf <;> rfl

theorem rsliceContrib_revEntry {T : Type} (ns : List (Node T)) :
    rsliceContrib (revEntry ns) = (walkListN ns).reverse := by
  induction ns with
  | nil => rfl
  | cons n ns ih =>
    rw [revEntry, List.map_cons, List.reverse_cons, rsliceContrib_append]
    rw [show (ns.map (fun c => ((c : Node T), false))).reverse
      = revEntry ns from rfl]
    rw [ih, walkListN_cons, List.reverse_append]
    rw [rsliceContrib_cons, rsliceContrib_nil, List.append_nil]
    rfl

theorem rcontrib_false_eq {T : Type} (n : Node T) :
    rcontrib (n, false) = (walkListE n.edges).reverse ++ leafPairs n.leaf := by
  cases n with
  | mk lf pf es =>
    show (walkList (Node.mk lf pf es)).reverse = _
    rw [walkList_mk, List.reverse_append, leafPairs_reverse]
    rfl

/-- The reverse drain of a stack is the concatenation of the entries'
contributions. -/
theorem rdrain_eq {T : Type} (st : List (List (Node T × Bool))) :
    rdrain st = rstackContrib st := by
  induction st using rdrain.induct with
  | case1 => rw [rdrain]; rfl
  | case2 rest ih =>
    rw [rdrain, ih, rstackContrib_cons, rsliceContrib_nil, List.nil_append]
  | case3 elem top rest ih =>
    rw [rdrain, ih, rstackContrib_pushStackR, rstackContrib_cons,
      rsliceContrib_cons]
    rw [show rcontrib ((elem : Node T), true) = leafPairs elem.leaf from rfl]
    rw [List.append_assoc]
  | case4 elem top rest h ih =>
    rw [rdrain]
    split
    · rw [ih, rstackContrib_pushStackR, rstackContrib_cons, rsliceContrib_cons]
      rw [rcontrib_false_eq, h]
      simp [walkListE]
    · rename_i heq
      rw [h] at heq
      cases heq
  | case5 elem top rest x xs h ih =>
    rw [rdrain]
    split
    · rename_i heq
      rw [h] at heq
      cases heq
    · rw [ih, rstackContrib_cons, rstackContrib_cons, rstackContrib_pushStackR,
        rsliceContrib_revEntry, rstackContrib_cons, rsliceContrib_cons]
      rw [show rcontrib ((elem : Node T), true) = leafPairs elem.leaf from rfl,
        rsliceContrib_nil, List.append_nil]
      rw [rsliceContrib_cons, rcontrib_false_eq]
      rw [show walkListN (children elem) = walkListE elem.edges from by
        rw [children, walkListN_map_snd]]
      simp [List.append_assoc]


/-- Embedding of `ReverseIterator.SeekReverseLowerBound`'s loop, with the
accumulated stack passed along (the source appends to `ri.i.stack`).
`found(n)` pushes `[n]` marked expanded; a leaf node that is neither the
exact key nor childless is likewise pushed marked before the descent
continues, in the source once before consuming the prefix — here the
push is written at each continuation site. -/
def seekRevLB {T : Type} (n : Node T) (key search : Key)
    (stack : List (List (Node T × Bool))) : List (List (Node T × Bool)) :=
  match prefixCmpO n.pfx search with
  | .lt => [(n, false)] :: stack
  | .gt => stack
  | .eq =>
    if leafEqKey n key then [(n, true)] :: stack
    else if n.leaf.isSome && n.edges.isEmpty then [(n, true)] :: stack
    else
      match search.drop n.pfx.length with
      | [] => if n.leaf.isSome then [(n, true)] :: stack else stack
      | b :: rest' =>
        match h : getLowerBoundEdge n b with
        | none =>
          pushStackR (revEntry (children n))
            (if n.leaf.isSome then [(n, true)] :: stack else stack)
        | some (idx, lb) =>
          seekRevLB lb key (b :: rest')
            (pushStackR (revEntry ((children n).take idx))
              (if n.leaf.isSome then [(n, true)] :: stack else stack))
termination_by sizeOf n
decreasing_by
  obtain ⟨l, hmem⟩ := getLowerBoundEdge_mem h
  exact sizeOf_lt_of_mem_edges hmem

/-- `SeekReverseLowerBound(key)` followed by draining `Previous`: the
seek wipes the stack and clears `node`, so the subsequent iteration is
exactly the reverse drain of the seek's stack. -/
def seekRevLowerBoundDrain {T : Type} (n : Node T) (key : Key) :
    List (Key × T) :=
  rdrain (seekRevLB n key key [])

theorem seekRevLB_lt {T : Type} {n : Node T} {key search : Key}
    (h : prefixCmpO n.pfx search = .lt)
    (stack : List (List (Node T × Bool))) :
    seekRevLB n key search stack = [(n, false)] :: stack := by
  rw [seekRevLB, h]

theorem seekRevLB_gt {T : Type} {n : Node T} {key search : Key}
    (h : prefixCmpO n.pfx search = .gt)
    (stack : List (List (Node T × Bool))) :
    seekRevLB n key search stack = stack := by
  rw [seekRevLB, h]

theorem seekRevLB_eq_exact {T : Type} {n : Node T} {key search : Key}
    (h : prefixCmpO n.pfx search = .eq) (hleaf : leafEqKey n key = true)
    (stack : List (List (Node T × Bool))) :
    seekRevLB n key search stack = [(n, true)] :: stack := by
  rw [seekRevLB, h]
  simp only [hleaf, if_pos]

theorem seekRevLB_eq_leafonly {T : Type} {n : Node T} {key search : Key}
    (h : prefixCmpO n.pfx search = .eq) (hleaf : leafEqKey n key = false)
    (hlo : (n.leaf.isSome && n.edges.isEmpty) = true)
    (stack : List (List (Node T × Bool))) :
    seekRevLB n key search stack = [(n, true)] :: stack := by
  rw [seekRevLB, h]
  rw [if_neg (by rw [hleaf]; simp)]
  simp only [hlo, if_pos]

theorem seekRevLB_eq_exhausted {T : Type} {n : Node T} {key search : Key}
    (h : prefixCmpO n.pfx search = .eq) (hleaf : leafEqKey n key = false)
    (hlo : (n.leaf.isSome && n.edges.isEmpty) = false)
    (hdrop : search.drop n.pfx.length = [])
    (stack : List (List (Node T × Bool))) :
    seekRevLB n key search stack =
      (if n.leaf.isSome then [(n, true)] :: stack else stack) := by
  rw [seekRevLB, h]
  rw [if_neg (by rw [hleaf]; simp)]
  rw [if_neg (by rw [hlo]; simp)]
  rw [hdrop]

theorem seekRevLB_eq_lb_none {T : Type} {n : Node T} {key search : Key}
    {b : Nat} {rest' : Key}
    (h : prefixCmpO n.pfx search = .eq) (hleaf : leafEqKey n key = false)
    (hlo : (n.leaf.isSome && n.edges.isEmpty) = false)
    (hdrop : search.drop n.pfx.length = b :: rest')
    (hlb : getLowerBoundEdge n b = none)
    (stack : List (List (Node T × Bool))) :
    seekRevLB n key search stack =
      pushStackR (revEntry (children n))
        (if n.leaf.isSome then [(n, true)] :: stack else stack) := by
  rw [seekRevLB, h]
  rw [if_neg (by rw [hleaf]; simp)]
  rw [if_neg (by rw [hlo]; simp)]
  rw [hdrop]
  split
  · rename_i heq
    cases heq
  · rename_i heq
    cases heq
  · split
    · rename_i heq
      cases heq
    · rename_i x b2 rest2 heq
      obtain ⟨hb, hr⟩ := List.cons.injEq .. ▸ heq
      subst hb
      subst hr
      split
      · rfl
      · rename_i idx2 lb2 heq2
        rw [hlb] at heq2
        cases heq2

theorem seekRevLB_eq_lb_some {T : Type} {n : Node T} {key search : Key}
    {b : Nat} {rest' : Key} {idx : Nat} {lb : Node T}
    (h : prefixCmpO n.pfx search = .eq) (hleaf : leafEqKey n key = false)
    (hlo : (n.leaf.isSome && n.edges.isEmpty) = false)
    (hdrop : search.drop n.pfx.length = b :: rest')
    (hlb : getLowerBoundEdge n b = some (idx, lb))
    (stack : List (List (Node T × Bool))) :
    seekRevLB n key search stack =
      seekRevLB lb key (b :: rest')
        (pushStackR (revEntry ((children n).take idx))
          (if n.leaf.isSome then [(n, true)] :: stack else stack)) := by
  rw [seekRevLB, h]
  rw [if_neg (by rw [hleaf]; simp)]
  rw [if_neg (by rw [hlo]; simp)]
  rw [hdrop]
  split
  · rename_i heq
    cases heq
  · rename_i heq
    cases heq
  · split
    · rename_i heq
      cases heq
    · rename_i x b2 rest2 heq
      obtain ⟨hb, hr⟩ := List.cons.injEq .. ▸ heq
      subst hb
      subst hr
      split
      · rename_i heq2
        rw [hlb] at heq2
        cases heq2
      · rename_i idx2 lb2 heq2
        rw [hlb] at heq2
        obtain ⟨h1, h2⟩ := Prod.mk.injEq .. ▸ Option.some_inj.mp heq2
        rw [← h1, ← h2]


theorem filter_keyLeR_all {T : Type} {key : Key} {L : List (Key × T)}
    (h : ∀ kv ∈ L, bytesCompare kv.1 key ≠ .gt) :
    L.filter (fun kv => keyLe kv.1 key) = L := by
  rw [List.filter_eq_self]
  intro kv hkv
  rw [keyLe_iff]
  exact h kv hkv

theorem filter_keyLeR_none {T : Type} {key : Key} {L : List (Key × T)}
    (h : ∀ kv ∈ L, bytesCompare kv.1 key = .gt) :
    L.filter (fun kv => keyLe kv.1 key) = [] := by
  rw [List.filter_eq_nil_iff]
  intro kv hkv
  rw [Bool.not_eq_true]
  exact keyLe_false_of_gt (h kv hkv)

/-- Loop invariant of `SeekReverseLowerBound`: at a node reached with
accumulated path `p` above it and unmatched `search` (the full key being
`p ++ search`), the seek leaves on the stack entries contributing
exactly the subtree's entries with keys `≤ key` in reverse walk order,
on top of the incoming stack. -/
theorem seekRevLB_stackContrib {T : Type} (n : Node T) :
    ∀ (p search key : Key) (stack : List (List (Node T × Bool))),
    validSub p n = true → key = p ++ search →
    rstackContrib (seekRevLB n key search stack) =
      ((walkList n).filter (fun kv => keyLe kv.1 key)).reverse ++
        rstackContrib stack := by
  induction n using node_strong_ind with
  | ind n IH =>
    intro p search key stack hv hkey
    cases hpc : prefixCmpO n.pfx search with
    | lt =>
      rw [seekRevLB_lt hpc, rstackContrib_cons, rsliceContrib_cons,
        rsliceContrib_nil, List.append_nil]
      have hall : ∀ kv ∈ walkList n, bytesCompare kv.1 key ≠ .gt := by
        intro kv hkv
        obtain ⟨w, hw⟩ := walk_key_shape n p hv kv hkv
        rw [hkey, hw, List.append_assoc, bytesCompare_append_left]
        rw [prefixCmpO_lt hpc w]
        simp
      rw [filter_keyLeR_all hall]
      rfl
    | gt =>
      rw [seekRevLB_gt hpc]
      have hall : ∀ kv ∈ walkList n, bytesCompare kv.1 key = .gt := by
        intro kv hkv
        obtain ⟨w, hw⟩ := walk_key_shape n p hv kv hkv
        rw [hkey, hw, List.append_assoc, bytesCompare_append_left]
        exact bytesCompare_gt_of_lt (prefixCmpO_gt hpc w)
      rw [filter_keyLeR_none hall]
      simp
    | eq =>
      have hsearch := prefixCmpO_eq hpc
      cases n with
      | mk lf pf es =>
        have hv' := hv
        rw [validSub_mk] at hv'
        obtain ⟨hl, hs, hc⟩ := hv'
        have hpfx : (Node.mk lf pf es).pfx = pf := rfl
        have hsearchP : search = pf ++ search.drop pf.length := hsearch
        by_cases hleq : leafEqKey (Node.mk lf pf es) key = true
        · rw [seekRevLB_eq_exact hpc hleq, rstackContrib_cons,
            rsliceContrib_cons, rsliceContrib_nil, List.append_nil]
          have hkeypf : key = p ++ pf := by
            unfold leafEqKey at hleq
            cases hlf : lf with
            | none =>
              rw [show (Node.mk lf pf es).leaf = lf from rfl, hlf] at hleq
              cases hleq
            | some l =>
              rw [show (Node.mk lf pf es).leaf = lf from rfl, hlf] at hleq
              rw [beq_iff_eq] at hleq
              rw [← hleq]
              exact hl l (by rw [hlf])
          have hfilleaf : (leafPairs lf).filter
              (fun kv => keyLe kv.1 key) = leafPairs lf := by
            apply filter_keyLeR_all
            intro kv hkv
            have hk1 := leaf_mem_key_eq hl hkv
            rw [hk1, hkeypf, bytesCompare_self]
            simp
          have hfilch : (walkListE es).filter
              (fun kv => keyLe kv.1 key) = [] := by
            apply filter_keyLeR_none
            intro kv hkv
            obtain ⟨lab, cn, hm, hkv'⟩ := mem_walkListE hkv
            obtain ⟨w, hw⟩ := child_key_shape hc hm hkv'
            rw [hw, hkeypf]
            exact bytesCompare_gt_of_lt
              (bytesCompare_self_append (p ++ pf) (by simp))
          rw [walkList_mk, List.filter_append, hfilleaf, hfilch,
            List.append_nil, leafPairs_reverse]
          rfl
        · rw [Bool.not_eq_true] at hleq
          by_cases hlo : ((Node.mk lf pf es).leaf.isSome
              && (Node.mk lf pf es).edges.isEmpty) = true
          · rw [seekRevLB_eq_leafonly hpc hleq hlo, rstackContrib_cons,
              rsliceContrib_cons, rsliceContrib_nil, List.append_nil]
            have hes : es = [] := by
              have h2 := ((Bool.and_eq_true _ _).mp hlo).2
              rw [show (Node.mk lf pf es).edges = es from rfl] at h2
              exact List.isEmpty_iff.mp h2
            have hfilleaf : (leafPairs lf).filter
                (fun kv => keyLe kv.1 key) = leafPairs lf := by
              apply filter_keyLeR_all
              intro kv hkv
              have hk1 := leaf_mem_key_eq hl hkv
              rw [hk1, hkey, hsearchP, ← List.append_assoc]
              exact bytesCompare_self_append_ne_gt (p ++ pf) _
            rw [walkList_mk, hes, List.filter_append, hfilleaf]
            rw [show walkListE ([] : List (Nat × Node T)) = [] from rfl]
            rw [List.filter_nil, List.append_nil, leafPairs_reverse]
            rfl
          · rw [Bool.not_eq_true] at hlo
            cases hdr : search.drop pf.length with
            | nil =>
              rw [seekRevLB_eq_exhausted hpc hleq hlo hdr]
              have hkeypf : key = p ++ pf := by
                rw [hkey, hsearchP, hdr, List.append_nil]
              have hlfnone : lf = none := by
                cases hlf : lf with
                | none => rfl
                | some l =>
                  exfalso
                  have hk := hl l hlf
                  have hleq2 : leafEqKey (Node.mk lf pf es) key = true := by
                    unfold leafEqKey
                    rw [show (Node.mk lf pf es).leaf = lf from rfl, hlf]
                    rw [beq_iff_eq, hk, hkeypf]
                  rw [hleq] at hleq2
                  cases hleq2
              subst hlfnone
              rw [if_neg (by simp [Node.leaf])]
              have hfilch : (walkListE es).filter
                  (fun kv => keyLe kv.1 key) = [] := by
                apply filter_keyLeR_none
                intro kv hkv
                obtain ⟨lab, cn, hm, hkv'⟩ := mem_walkListE hkv
                obtain ⟨w, hw⟩ := child_key_shape hc hm hkv'
                rw [hw, hkeypf]
                exact bytesCompare_gt_of_lt
                  (bytesCompare_self_append (p ++ pf) (by simp))
              rw [walkList_mk, List.filter_append, hfilch]
              simp [leafPairs]
            | cons b rest' =>
              have hkey2 : key = (p ++ pf) ++ (b :: rest') := by
                rw [hkey, hsearchP, hdr, ← List.append_assoc]
              have hfilleaf : (leafPairs lf).filter
                  (fun kv => keyLe kv.1 key) = leafPairs lf := by
                apply filter_keyLeR_all
                intro kv hkv
                have hk1 := leaf_mem_key_eq hl hkv
                rw [hk1, hkey2]
                rw [bytesCompare_self_append (p ++ pf) (by simp)]
                simp
              have hstack1 : rstackContrib
                  (if (Node.mk lf pf es).leaf.isSome
                    then [(Node.mk lf pf es, true)] :: stack
                    else stack) =
                  leafPairs lf ++ rstackContrib stack := by
                cases hlf : lf with
                | none =>
                  rw [if_neg (by simp [Node.leaf])]
                  rfl
                | some l =>
                  rw [if_pos (by simp [Node.leaf])]
                  rw [rstackContrib_cons, rsliceContrib_cons,
                    rsliceContrib_nil, List.append_nil]
                  rfl
              cases hlb : getLowerBoundEdge (Node.mk lf pf es) b with
              | none =>
                rw [seekRevLB_eq_lb_none hpc hleq hlo hdr hlb]
                rw [rstackContrib_pushStackR, rsliceContrib_revEntry, hstack1]
                have hlabs := getLowerBoundEdge_none
                  (show labelsSorted (Node.mk lf pf es).edges = true from hs)
                  hlb
                have hlabs' : ∀ k (hk : k < es.length), (es[k]).1 < b :=
                  fun k hk => hlabs k hk
                have hfilch : (walkListE es).filter
                    (fun kv => keyLe kv.1 key) = walkListE es := by
                  apply filter_keyLeR_all
                  intro kv hkv
                  obtain ⟨lab, cn, hm, hkv'⟩ := mem_walkListE hkv
                  obtain ⟨w, hw⟩ := child_key_shape hc hm hkv'
                  obtain ⟨i, hi, hget⟩ := List.getElem_of_mem hm
                  have hlablt : lab < b := by
                    have h8 := hlabs' i hi
                    rw [hget] at h8
                    exact h8
                  rw [hw, hkey2]
                  rw [bytesCompare_append_head_lt hlablt _ _]
                  simp
                rw [walkList_mk, List.filter_append, hfilleaf, hfilch]
                rw [List.reverse_append, leafPairs_reverse]
                rw [show walkListN (children (Node.mk lf pf es))
                    = walkListE es from by
                  rw [show children (Node.mk lf pf es) = es.map Prod.snd
                    from rfl, walkListN_map_snd]]
                simp [List.append_assoc]
              | some pr =>
                obtain ⟨idx, lb⟩ := pr
                obtain ⟨hlt, hlbeq, hge, hsmall⟩ :=
                  getLowerBoundEdge_some
                    (show labelsSorted (Node.mk lf pf es).edges = true from hs)
                    hlb
                have hlt' : idx < es.length := hlt
                have hlbeq' : lb = (es[idx]).2 := hlbeq
                have hge' : b ≤ (es[idx]).1 := hge
                have hsmall' : ∀ k (hk : k < es.length), k < idx →
                    (es[k]).1 < b := fun k hk => hsmall k hk
                have hmem2 : ((es[idx]).1, lb) ∈ es := by
                  rw [hlbeq', Prod.mk.eta]
                  exact List.getElem_mem hlt'
                have hcv := childrenValid_mem hc hmem2
                rw [seekRevLB_eq_lb_some hpc hleq hlo hdr hlb]
                rw [IH lb (sizeOf_lt_of_mem_edges hmem2) (p ++ pf)
                  (b :: rest') key
                  (pushStackR
                    (revEntry ((children (Node.mk lf pf es)).take idx))
                    (if (Node.mk lf pf es).leaf.isSome
                      then [(Node.mk lf pf es, true)] :: stack
                      else stack)) hcv.2.2.2 hkey2]
                rw [rstackContrib_pushStackR, rsliceContrib_revEntry, hstack1]
                have hdecomp : es = es.take idx ++
                    es[idx] :: es.drop (idx + 1) := by
                  conv_lhs => rw [← List.take_append_drop idx es]
                  rw [List.drop_eq_getElem_cons hlt']
                have hfiltake : (walkListE (es.take idx)).filter
                    (fun kv => keyLe kv.1 key) = walkListE (es.take idx) := by
                  apply filter_keyLeR_all
                  intro kv hkv
                  obtain ⟨lab, cn, hm, hkv'⟩ := mem_walkListE hkv
                  obtain ⟨w, hw⟩ := child_key_shape hc
                    (List.mem_of_mem_take hm) hkv'
                  obtain ⟨i, hi, hget⟩ := List.mem_iff_getElem.mp hm
                  have hi' : i < idx ∧ i < es.length := by
                    simp [List.length_take] at hi
                    omega
                  rw [List.getElem_take] at hget
                  have hlablt : lab < b := by
                    have h8 := hsmall' i hi'.2 hi'.1
                    rw [hget] at h8
                    exact h8
                  rw [hw, hkey2]
                  rw [bytesCompare_append_head_lt hlablt _ _]
                  simp
                have hfildrop : (walkListE (es.drop (idx + 1))).filter
                    (fun kv => keyLe kv.1 key) = [] := by
                  apply filter_keyLeR_none
                  intro kv hkv
                  obtain ⟨lab, cn, hm, hkv'⟩ := mem_walkListE hkv
                  obtain ⟨w, hw⟩ := child_key_shape hc
                    (List.mem_of_mem_drop hm) hkv'
                  obtain ⟨i, hi, hget⟩ := List.mem_iff_getElem.mp hm
                  have hi' : idx + 1 + i < es.length := by
                    simp [List.length_drop] at hi
                    omega
                  rw [List.getElem_drop] at hget
                  have hlabgt : b < lab := by
                    have h6 := labelsSorted_getElem_lt hs hlt' hi' (by omega)
                    rw [hget] at h6
                    omega
                  rw [hw, hkey2]
                  exact bytesCompare_gt_of_lt
                    (bytesCompare_append_head_lt hlabgt _ _)
                rw [walkList_mk, List.filter_append, hfilleaf]
                conv_rhs => rw [hdecomp]
                rw [walkListE_append, walkListE_cons]
                rw [show (es[idx]).2 = lb from hlbeq'.symm]
                rw [List.filter_append, hfiltake, List.filter_append,
                  hfildrop, List.append_nil]
                rw [show walkListN ((children (Node.mk lf pf es)).take idx)
                    = walkListE (es.take idx) from by
                  rw [show children (Node.mk lf pf es) = es.map Prod.snd
                    from rfl]
                  rw [← List.map_take]
                  rw [walkListN_map_snd]]
                rw [List.reverse_append, List.reverse_append,
                  leafPairs_reverse]
                simp [List.append_assoc]


/-- C3: on a valid tree, `SeekReverseLowerBound(key)` followed by
draining `Previous` yields exactly the entries of the pre-order walk
whose keys are `≤ key` (unsigned lexicographic), in strictly descending
order (the reverse of their ascending order). -/
theorem C3_seek_reverse_lower_bound {T : Type} (n : Node T) (key : Key)
    (h : validRoot n = true) :
    seekRevLowerBoundDrain n key =
      ((walkList n).filter (fun kv => keyLe kv.1 key)).reverse ∧
    List.Pairwise (fun a b : Key × T => keyLt b.1 a.1 = true)
      (((walkList n).filter (fun kv => keyLe kv.1 key)).reverse) := by
  obtain ⟨h1, h2⟩ := validRoot_parts h
  constructor
  · rw [seekRevLowerBoundDrain, rdrain_eq]
    rw [seekRevLB_stackContrib n [] key key [] h2 (by simp)]
    rw [rstackContrib_nil, List.append_nil]
  · rw [List.pairwise_reverse]
    exact List.Pairwise.sublist (List.filter_sublist _)
      (walk_sorted_keyLt n [] h2)

/-- Witness for C3 at the concrete example tree and key `"ab"`. -/
theorem C3_witness :
    validRoot exNode = true ∧
    (seekRevLowerBoundDrain exNode [97, 98] =
      ((walkList exNode).filter (fun kv => keyLe kv.1 [97, 98])).reverse ∧
    List.Pairwise (fun a b : Key × Nat => keyLt b.1 a.1 = true)
      (((walkList exNode).filter (fun kv => keyLe kv.1 [97, 98])).reverse)) :=
  ⟨exNode_validRoot,
    C3_seek_reverse_lower_bound exNode [97, 98] exNode_validRoot⟩

end IRadix
